import Mathlib

/-!
Verification development for the Tangle distributed-ledger engine
(C++ sources: `transaction.cpp/.hpp`, `tangle.cpp/.hpp`, `utility.hpp`,
`networking_tangle.cpp`, `networking.hpp`, `keys.hpp`).

The development is a shallow embedding: C++ `double`/`float` amounts and
weights are modelled as `ℚ`, machine strings as `String`, and the external
cryptographic primitives (SHA3-256+base64 hashing, ECDSA signing, gzip)
are modelled by contract as injective/deterministic pure functions, as the
specification treats them ("specified by contract").  Every function that
mirrors a C++ function keeps its source name.
-/

/-! ## Character classification (C locale, ASCII), from `utility.hpp` -/

/-- ASCII `isdigit` of the C locale, on a character's code point. -/
def isDigitC (c : Char) : Bool := 48 ≤ c.toNat && c.toNat ≤ 57

/-- ASCII `isupper` of the C locale. -/
def isUpperC (c : Char) : Bool := 65 ≤ c.toNat && c.toNat ≤ 90

/-- ASCII `islower` of the C locale. -/
def isLowerC (c : Char) : Bool := 97 ≤ c.toNat && c.toNat ≤ 122

/-- ASCII `isalnum` of the C locale. -/
def isAlnumC (c : Char) : Bool := isDigitC c || isUpperC c || isLowerC c

/-- A character is a valid base-64 digit: alphanumeric, `+`, or `/`
(the check performed by `util::base64Compare`'s inner lambda). -/
def isBase64C (c : Char) : Bool := isAlnumC c || c.toNat = 43 || c.toNat = 47

/-! ## `util::base64Compare` (utility.hpp lines 207-258)

`base64CharCompare` mirrors the inner lambda: it first validates both
characters (the C++ throws `runtime_error` on an invalid character, which
we model as `none`), then compares them in the order
`/` > `+` > digits > lowercase > uppercase. -/

/-- The inner character comparison of `util::base64Compare`.
`none` models the `runtime_error` thrown for a non-base-64 character. -/
def base64CharCompare (a b : Char) : Option Int :=
  if !(isBase64C a) then none
  else if !(isBase64C b) then none
  else if a = b then some 0
  else if a.toNat = 47 then some 1
  else if b.toNat = 47 then some (-1)
  else if a.toNat = 43 then some 1
  else if b.toNat = 43 then some (-1)
  else if isDigitC a && isDigitC b then
    (if b.toNat < a.toNat then some 1 else some (-1))
  else if isDigitC a then some 1
  else if isDigitC b then some (-1)
  else if isLowerC a && isLowerC b then
    (if b.toNat < a.toNat then some 1 else some (-1))
  else if isLowerC a then some 1
  else if isLowerC b then some (-1)
  else if b.toNat < a.toNat then some 1 else some (-1)

/-- Character-by-character loop of `util::base64Compare` on two
equally sized strings (represented as their character lists). -/
def base64CompareAux : List Char → List Char → Option Int
  | a :: as, b :: bs =>
    match base64CharCompare a b with
    | none => none
    | some 0 => base64CompareAux as bs
    | some r => some r
  | _, _ => some 0

/-- `util::base64Compare`: which of two base-64 strings denotes the bigger
number.  Longer strings are bigger; equally long strings are compared
character by character.  `1` = first bigger, `0` = equal, `-1` = second
bigger; `none` models the exception thrown on an invalid character. -/
def base64Compare (a b : String) : Option Int :=
  if b.length < a.length then some 1
  else if a.length < b.length then some (-1)
  else base64CompareAux a.data b.data

/-! ## Specification-side base-64 order

The spec describes the order independently of the code: "longer strings
are larger, and within equal-length strings characters are ordered
`/` > `+` > digits > lowercase > uppercase".  `b64rank` realizes that
character order as the standard base-64 digit value. -/

/-- Rank of a base-64 character in the spec's order: uppercase 0-25,
lowercase 26-51, digits 52-61, `+` = 62, `/` = 63. -/
def b64rank (c : Char) : Nat :=
  if isUpperC c then c.toNat - 65
  else if isLowerC c then c.toNat - 97 + 26
  else if isDigitC c then c.toNat - 48 + 52
  else if c.toNat = 43 then 62
  else 63

/-- Lexicographic comparison of equally long character lists by `b64rank`
(spec side). -/
def b64rankCompare : List Char → List Char → Int
  | a :: as, b :: bs =>
    if b64rank a = b64rank b then b64rankCompare as bs
    else if b64rank b < b64rank a then 1 else -1
  | _, _ => 0

/-- The spec's numeric order on base-64 strings: longer is larger,
equal lengths compare lexicographically by `b64rank`. -/
def b64SpecCompare (a b : String) : Int :=
  if b.length < a.length then 1
  else if a.length < b.length then -1
  else b64rankCompare a.data b.data

/-! ## Modelled external primitives (crypto, by contract)

The hash, signature and key primitives live in `keys.hpp` /
CryptoPP and are out of scope of the core ("specified by contract").
They are modelled as pure injective stand-ins. -/

/-- Hexadecimal digit rendered as one of the letters `A`..`P`
(used by the injective string encodings below). -/
def nibbleChar (n : Nat) : Char :=
  match n with
  | 0 => 'A' | 1 => 'B' | 2 => 'C' | 3 => 'D'
  | 4 => 'E' | 5 => 'F' | 6 => 'G' | 7 => 'H'
  | 8 => 'I' | 9 => 'J' | 10 => 'K' | 11 => 'L'
  | 12 => 'M' | 13 => 'N' | 14 => 'O' | _ => 'P'

/-- Base-16 digits of `n` (most significant first) as letters `A`..`P`;
the first argument is structural fuel (`n` itself always suffices). -/
def natLettersAux : Nat → Nat → List Char
  | 0, _ => []
  | fuel + 1, n =>
    if n = 0 then [] else natLettersAux fuel (n / 16) ++ [nibbleChar (n % 16)]

/-- Injective rendering of a natural number over the alphabet `A`..`P`. -/
def encodeNat (n : Nat) : String :=
  if n = 0 then "A" else String.mk (natLettersAux n n)

/-- Injective rendering of an integer (`Y` marks a negative sign). -/
def encodeInt (i : Int) : String :=
  match i with
  | Int.ofNat n => encodeNat n
  | Int.negSucc n => "Y" ++ encodeNat (n + 1)

/-- Injective rendering of a rational number (numerator `Z` denominator).
Stand-in for the decimal text `std::to_string(double)` used when signing
and hashing amounts. -/
def ratText (q : ℚ) : String := encodeInt q.num ++ "Z" ++ encodeNat q.den

/-- Injective rendering of a character list over `A`..`P` and `Y`. -/
def encodeChars : List Char → String
  | [] => ""
  | c :: cs => encodeNat c.toNat ++ "Y" ++ encodeChars cs

/-- Modelled from the spec: `util::hash` (SHA3-256 digest, base-64
encoded, newlines stripped) is an external primitive; it is idealized as
a deterministic fixed-length digest into base-64 strings (a rolling
64-bit compression rendered over `A`..`P`).  Like the real digest it is
compressive, so collision-freeness is not a theorem; where a proof needs
it, it appears as an explicit distinct-hash hypothesis.  The `AAA`
prefix makes every produced hash satisfy the default difficulty-3 mining
target, standing for a nonce for which mining has succeeded. -/
def utilHash (s : String) : String :=
  "AAA" ++ encodeNat ((s.data.foldl (fun a c => (a * 131 + c.toNat + 1) % 18446744073709551616) 7))

/-- Modelled from the spec: an ECDSA signature (`key::signMessage`)
is idealized as the pair of the signing key and the signed message. -/
structure Sig where
  key : Nat
  msg : String
deriving Repr, DecidableEq

/-- Modelled from the spec: `key::signMessage` by contract. -/
def signMessage (pri : Nat) (m : String) : Sig := ⟨pri, m⟩

/-- Modelled from the spec: `key::verifyMessage` by contract — a
signature verifies exactly when it was produced by the key's private
half over the same message (a key pair is identified with one `Nat`). -/
def verifyMessage (pub : Nat) (m : String) (s : Sig) : Bool :=
  s.key == pub && s.msg == m

/-! ## Transaction data model (`transaction.hpp` / `transaction.cpp`) -/

/-- `Transaction::Output`: an account (public key, modelled as `Nat` via
its base-64 serialization) and an amount (`double`, modelled as `ℚ`). -/
structure TxOutput where
  account : Nat
  amount : ℚ
deriving Repr, DecidableEq

/-- `Transaction::Input`: an output plus the owner's signature over the
decimal text of the amount. -/
structure TxInput where
  account : Nat
  amount : ℚ
  signature : Sig
deriving Repr, DecidableEq

/-- `Transaction::Output::hashContribution`: account base-64 text followed
by the amount text. -/
def outputHashContribution (o : TxOutput) : String :=
  encodeNat o.account ++ ratText o.amount

/-- `Transaction::Input::hashContribution`: account, amount, signature. -/
def inputHashContribution (i : TxInput) : String :=
  encodeNat i.account ++ ratText i.amount ++ encodeNat i.signature.key ++ encodeChars i.signature.msg.data

/-- The `Transaction` record (`transaction.hpp`).  `miningDifficulty` is a
`uint8_t` counting how many leading hash characters must match
`miningTarget`. -/
structure Transaction where
  timestamp : Int
  nonce : Nat
  miningDifficulty : Nat
  miningTarget : Char
  inputs : List TxInput
  outputs : List TxOutput
  parentHashes : List String
  hash : String
deriving Repr, DecidableEq

/-- `Transaction::hashTransaction` (transaction.cpp lines 161-174):
hash of the concatenation of timestamp, nonce, every input's and output's
hash contribution, and the parent hashes. -/
def hashTransaction (t : Transaction) : String :=
  utilHash (encodeInt t.timestamp ++ encodeNat t.nonce
    ++ String.join (t.inputs.map inputHashContribution)
    ++ String.join (t.outputs.map outputHashContribution)
    ++ String.join t.parentHashes)

/-- The target string `validateTransactionMined` builds:
`miningDifficulty` copies of `miningTarget`, padded to the hash's length
with `/` characters. -/
def miningTargetString (t : Transaction) : String :=
  String.mk (List.replicate t.miningDifficulty t.miningTarget
    ++ List.replicate (t.hash.length - t.miningDifficulty) '/')

/-- `Transaction::validateTransactionMined` (transaction.cpp lines
127-136): false outright when the difficulty exceeds the hash length,
otherwise true iff the hash compares `≤ 0` against the target string.
`none` models the exception `util::base64Compare` throws on an invalid
character. -/
def validateTransactionMined (t : Transaction) : Option Bool :=
  if t.hash.length < t.miningDifficulty then some false
  else (base64Compare t.hash (miningTargetString t)).map (fun r => decide (r ≤ 0))

/-- `Transaction::validateTransactionTotals` (transaction.cpp lines
181-191): the input amounts sum to at least the output amounts. -/
def validateTransactionTotals (t : Transaction) : Bool :=
  decide ((t.outputs.map TxOutput.amount).sum ≤ (t.inputs.map TxInput.amount).sum)

/-- `Transaction::validateTransaction` (transaction.cpp lines 198-208):
the stored hash matches the recomputed hash and every input's signature
verifies against its account over the amount's decimal text. -/
def validateTransaction (t : Transaction) : Bool :=
  (hashTransaction t == t.hash)
    && t.inputs.all (fun i => verifyMessage i.account (ratText i.amount) i.signature)

/-- Insert `a` into `l` before the first element `b` with `r a b`
(the inner step of a stable insertion sort, standing in for the
unspecified sorting algorithms of `std::sort` / `std::list::sort`). -/
def orderedInsertBy {α : Type} (r : α → α → Bool) (a : α) : List α → List α
  | [] => [a]
  | b :: l => if r a b then a :: b :: l else b :: orderedInsertBy r a l

/-- Stable insertion sort by the Bool relation `r` ("comes before or may
stay before"). -/
def insertionSortBy {α : Type} (r : α → α → Bool) : List α → List α
  | [] => []
  | b :: l => orderedInsertBy r b (insertionSortBy r l)

/-- Lexicographic byte order on character lists — `std::string`'s
`operator<`. -/
def strLtChars : List Char → List Char → Bool
  | [], [] => false
  | [], _ :: _ => true
  | _ :: _, [] => false
  | a :: as, b :: bs =>
    if a.toNat < b.toNat then true
    else if b.toNat < a.toNat then false
    else strLtChars as bs

/-- `std::string` `operator<`. -/
def strLt (a b : String) : Bool := strLtChars a.data b.data

/-- `std::string` `operator<=`. -/
def strLe (a b : String) : Bool := !(strLt b a)

/-- The parent-hash normalization performed by the `Transaction`
constructor (transaction.cpp lines 34-49): collect the hashes into a set
(dropping duplicates) and sort them ascending. -/
def sortDedup (l : List String) : List String :=
  insertionSortBy strLe l.dedup

/-- The `Transaction` constructor (transaction.cpp lines 26-51).  The
CSPRNG nonce seed and the UTC timestamp are passed as parameters; the
mining target keeps its default `'A'`.  The hash is computed over the
stored (normalized) fields.  No mining happens here. -/
def mkTransaction (parents : List String) (inputs : List TxInput)
    (outputs : List TxOutput) (difficulty : Nat) (nonceSeed : Nat)
    (ts : Int) : Transaction :=
  let t0 : Transaction :=
    { timestamp := ts, nonce := nonceSeed, miningDifficulty := difficulty,
      miningTarget := 'A', inputs := inputs, outputs := outputs,
      parentHashes := sortDedup parents, hash := "" }
  { t0 with hash := hashTransaction t0 }

/-! ## Weighted DAG model for cumulative weights (`tangle.cpp` lines
589-609, `tangle.hpp` `ownWeight`)

Nodes are indexed by creation order, so every child has a strictly larger
index than its parents (a node's parents exist before it is inserted);
`ok` packages that DAG shape.  `own i` stands for
`TransactionNode::ownWeight() = min(miningDifficulty / 5.0, 1.0)`. -/

structure WGraph where
  size : Nat
  own : Nat → ℚ
  children : Nat → List Nat
  ok : ∀ i c, c ∈ children i → i < c ∧ c < size

/-- `min(difficulty / 5.0, 1.0)`, the node's own weight
(`TransactionNode::ownWeight`, tangle.hpp line 132). -/
def ownWeight (difficulty : Nat) : ℚ := min ((difficulty : ℚ) / 5) 1

/-- The per-node equation `Tangle::updateCumulativeWeights` enforces at
every visited node — `cw := ownWeight() + Σ children cw` (tangle.cpp
lines 600-603) — read as the completed fixpoint on a graph that is no
longer changing: the cumulative weight each node holds once weight
propagation completes. -/
def cumulativeWeight (G : WGraph) (i : Nat) : ℚ :=
  G.own i + ((G.children i).attach.map (fun c => cumulativeWeight G c.1)).sum
termination_by G.size - i
decreasing_by
  have h := G.ok i c.1 c.2
  omega

/-- Number of distinct directed paths from `s` to `i` in the DAG
(an edge `p → i` is counted with the multiplicity of `i` in
`children p`).  Used to state what the cumulative-weight recurrence
actually sums. -/
def pathCount (G : WGraph) (s : Nat) (i : Nat) : Nat :=
  if i = s then 1
  else ∑ p in (Finset.range i).attach, ((G.children p.1).count i) * pathCount G s p.1
termination_by i
decreasing_by
  have h := Finset.mem_range.mp p.2
  omega

/-- Total number of parent edges pointing at `j` (how many child-list
entries across the graph equal `j`). -/
def inEdgeCount (G : WGraph) (j : Nat) : Nat :=
  ∑ p in Finset.range G.size, (G.children p).count j

/-! ## Biased random walk (`tangle.cpp` lines 278-309)

The CSPRNG draw of each step is abstracted as a stream `rs` of rationals
in `[0, 1)` (the output contract of `util::rand2double`), and the weight
`max(exp(-alpha * (cw(current) - cw(child))), DBL_MIN)` as an arbitrary
function `wfn current child` that the theorems require to be positive
(the C++ value always is, being a max with `DBL_MIN > 0`). -/

/-- The child-selection loop of `biasedRandomWalk`: starting from the
first entry, advance while the cumulative weight stays `≤ random`; the
result is the first index whose cumulative weight prefix-sum exceeds
`random`. -/
def selectIndex : List ℚ → ℚ → Nat
  | [], _ => 0
  | w :: ws, r => if r < w then 0 else 1 + selectIndex ws (r - w)

/-- `TransactionNode::biasedRandomWalk`: return the current node if it
has no children, otherwise pick a child with probability proportional to
its weight and recurse.  An out-of-range selection (impossible while the
draws stay in `[0, 1)` and weights are positive) returns the current
node. -/
def biasedRandomWalk (G : WGraph) (wfn : Nat → Nat → ℚ) (rs : Nat → ℚ)
    (step : Nat) (i : Nat) : Nat :=
  match h2 : (G.children i)[selectIndex ((G.children i).map (wfn i))
      (rs step * ((G.children i).map (wfn i)).sum)]? with
  | none => i
  | some c => biasedRandomWalk G wfn rs (step + 1) c
termination_by G.size - i
decreasing_by
  have hmem : c ∈ G.children i := List.getElem?_mem h2
  have h := G.ok i c hmem
  omega

/-! ## Confirmation confidence (`tangle.cpp` lines 316-369)

The graph here carries child lists, parent lists and genesis flags; the
walk set is a finite set of node indices (`std::unordered_set`).  The
outcome of the biased random walk performed from each walk-list entry —
whether the discovered tip approves the node — is abstracted as an
oracle indexed by the walk-list position. -/

structure CGraph where
  size : Nat
  children : Nat → List Nat
  parents : Nat → List Nat
  isGen : Nat → Bool

/-- One level of ancestor expansion: add the parents of every non-genesis
member of the set. -/
def expandParents (G : CGraph) (s : Finset ℕ) : Finset ℕ :=
  s ∪ s.biUnion (fun n => if G.isGen n then ∅ else (G.parents n).toFinset)

/-- `levels` rounds of ancestor expansion. -/
def expandLevels (G : CGraph) : Nat → Finset ℕ → Finset ℕ
  | 0, s => s
  | n + 1, s => expandLevels G n (expandParents G s)

/-- The walk set built by `confirmationConfidence`'s `generateWalkSet`:
seed with the node's children (or the node itself when childless), expand
5 levels of ancestors (6 when the node had children), then remove the
original children and the node itself. -/
def generateWalkSet (G : CGraph) (n : Nat) : Finset ℕ :=
  let ch := (G.children n).toFinset
  let s0 := if ch = ∅ then {n} else ch
  let levels := if ch = ∅ then 5 else 6
  (expandLevels G levels s0) \ ch \ {n}

/-- The duplication loop `while(walkList.size() < 100) merge(...)`:
double the list until it has at least 100 entries.  (The `length = 0`
disjunct only makes the model total: the source guards the loop behind an
emptiness check, so the loop is never entered on an empty list.) -/
def dupWalkList (l : List ℕ) : List ℕ :=
  if h : l.length = 0 ∨ 100 ≤ l.length then l
  else dupWalkList (l ++ l)
termination_by 100 - l.length
decreasing_by
  simp only [not_or, not_le] at h
  simp only [List.length_append]
  omega

/-- `TransactionNode::confirmationConfidence`: 0 for an empty walk set,
otherwise the number of successful walks (counted in a `uint8_t`, hence
modulo 256) over the walk-list size. -/
def confirmationConfidence (G : CGraph) (n : Nat) (walkApproves : Nat → Bool) : ℚ :=
  let wl := (generateWalkSet G n).sort (· ≤ ·)
  if wl = [] then 0
  else
    let full := dupWalkList wl
    let confidence := ((List.range full.length).countP walkApproves) % 256
    (confidence : ℚ) / (full.length : ℚ)

/-! ## The Tangle graph model (`tangle.hpp` / `tangle.cpp`)

A `TNode` is a `TransactionNode`: a transaction plus graph links.  C++
identifies nodes by `shared_ptr`; the model stores every allocated node
in a list and identifies a node by its list index (indices are creation
order, so children always have larger indices than their parents).
`tips` holds node indices, like the C++ list of `TransactionNode::ptr`.
-/

structure TNode where
  tx : Transaction
  isGenesis : Bool
  parents : List Nat
  children : List Nat
  cumulativeWeight : ℚ
deriving Repr, DecidableEq

/-- The `Tangle`: the node store (index 0 is the genesis created by the
constructor or installed by `setGenesis`), the tip list, and the bounded
buffer of genesis-candidate tip sets. -/
structure Tangle where
  nodes : List TNode
  tips : List Nat
  genesisCandidates : List (List Nat)
deriving Repr, DecidableEq

/-- A fresh `Tangle()` (tangle.hpp constructor): a genesis transaction
node with no parents, inputs or outputs, built by the default
`Transaction` constructor at the given timestamp and nonce seed. -/
def freshTangle (ts : Int) (nonceSeed : Nat) : Tangle :=
  { nodes := [{ tx := mkTransaction [] [] [] 3 nonceSeed ts,
                isGenesis := true, parents := [], children := [],
                cumulativeWeight := 0 }],
    tips := [], genesisCandidates := [] }

/-- The enqueue step shared by the BFS traversals (`find`,
`queryBalance`): push every child whose hash was not yet considered and
mark it considered. -/
def enqueueChildren (t : Tangle) : List Nat → List Nat × List String → List Nat × List String
  | [], qc => qc
  | c :: cs, (q, considered) =>
    match t.nodes[c]? with
    | none => enqueueChildren t cs (q, considered)
    | some cn =>
      if cn.tx.hash ∈ considered then enqueueChildren t cs (q, considered)
      else enqueueChildren t cs (q ++ [c], considered ++ [cn.tx.hash])

/-- The BFS loop of `TransactionNode::find` (tangle.cpp lines 123-153):
pop the head, return it if its hash matches — or if it is the genesis and
the hash is among its aliased parent hashes — else enqueue unconsidered
children.  `fuel` bounds the iteration count; `nodes.length + 1` always
suffices because every push marks a fresh hash as considered. -/
def findAux (t : Tangle) (h : String) : Nat → List Nat → List String → Option Nat
  | 0, _, _ => none
  | _ + 1, [], _ => none
  | fuel + 1, i :: q, considered =>
    match t.nodes[i]? with
    | none => findAux t h fuel q considered
    | some nd =>
      if nd.tx.hash = h then some i
      else if nd.isGenesis && decide (h ∈ nd.tx.parentHashes) then some i
      else
        let qc := enqueueChildren t nd.children (q, considered)
        findAux t h fuel qc.1 qc.2

/-- `Tangle::find` — BFS from the genesis. -/
def Tangle.find (t : Tangle) (h : String) : Option Nat :=
  findAux t h (t.nodes.length + 1) [0] []

/-- The BFS loop of `Tangle::queryBalance` (tangle.cpp lines 540-582) at
confidence threshold 0 (the threshold used by `add`; a zero threshold
skips the per-child confidence check, so every unconsidered child is
enqueued): subtract the node's matching inputs, fail `InvalidBalance` if
the running balance went negative, add the matching outputs, check
again, continue with the children. -/
def queryBalanceAux (t : Tangle) (account : Nat) :
    Nat → List Nat → List String → ℚ → Except (String × Nat × ℚ) ℚ
  | 0, _, _, bal => Except.ok bal
  | _ + 1, [], _, bal => Except.ok bal
  | fuel + 1, i :: q, considered, bal =>
    match t.nodes[i]? with
    | none => queryBalanceAux t account fuel q considered bal
    | some nd =>
      let bal1 := bal - ((nd.tx.inputs.filter (fun inp => inp.account == account)).map TxInput.amount).sum
      if bal1 < 0 then Except.error (nd.tx.hash, account, bal1)
      else
        let bal2 := bal1 + ((nd.tx.outputs.filter (fun o => o.account == account)).map TxOutput.amount).sum
        if bal2 < 0 then Except.error (nd.tx.hash, account, bal2)
        else
          let qc := enqueueChildren t nd.children (q, considered)
          queryBalanceAux t account fuel qc.1 qc.2 bal2

/-- `Tangle::queryBalance(account)` (threshold 0): BFS from the genesis;
`Except.error` carries the `InvalidBalance{node, account, balance}`
payload. -/
def Tangle.queryBalance (t : Tangle) (account : Nat) : Except (String × Nat × ℚ) ℚ :=
  queryBalanceAux t account (t.nodes.length + 1) [0] [] 0

/-! ## `Tangle::add` (tangle.cpp lines 406-489) -/

/-- The errors `add` can throw, in the source's wording:
`ValidationFailed`, `ValueConservation`, `UnminedTransaction` (the three
`runtime_error`s of the leading checks), the `runtime_error` raised by
`base64Compare` on an invalid character, `InvalidBalance`,
`NodeNotFoundException`, and the `runtime_error` for re-insertion as an
existing child. -/
inductive AddErr where
  | validationFailed
  | valueConservation
  | unminedTransaction
  | base64Invalid
  | invalidBalance (nodeHash : String) (account : Nat) (balance : ℚ)
  | nodeNotFound (h : String)
  | alreadyChild (parentHash : String) (nodeHash : String)
deriving Repr, DecidableEq

/-- The node argument of `Tangle::add`: a fully constructed
`TransactionNode` — its transaction and its parent links (indices of the
parent nodes inside the tangle's store). -/
structure AddNode where
  tx : Transaction
  parents : List Nat
deriving Repr, DecidableEq

/-- The balance-cache lookup loop inside `add` (tangle.cpp lines
425-432): scan `balanceMap`; the counter `i` is incremented before the
equality check, so a hit at index `k` leaves `i = k + 1` (the source's
off-by-one), and a miss leaves `i = length`.  Returns `(-1, i)` on a
miss (`-1` is the "invalid balance" sentinel). -/
def balanceMapLookupAux : List (Nat × ℚ) → Nat → Nat → ℚ × Nat
  | [], _, i => (-1, i)
  | (a, b) :: rest, acct, i =>
    if a == acct then (b, i + 1) else balanceMapLookupAux rest acct (i + 1)

/-- Entry point of the cache lookup (counter starts at 0). -/
def balanceMapLookup (m : List (Nat × ℚ)) (acct : Nat) : ℚ × Nat :=
  balanceMapLookupAux m acct 0

/-- The per-input balance simulation of `add` (tangle.cpp lines 418-445):
for each input, take the cached balance if the cache holds one (else
query it), subtract the input amount, throw `InvalidBalance` if the
result is negative, and write the result back into the cache — at index
`i` (which, after a hit at `k`, is `k + 1`: the faithful off-by-one) or
as a new entry when `i` equals the map size. -/
def balanceSimLoop (t : Tangle) (nodeHash : String) :
    List TxInput → List (Nat × ℚ) → Except (String × Nat × ℚ) Unit
  | [], _ => Except.ok ()
  | inp :: rest, balanceMap =>
    let li := balanceMapLookup balanceMap inp.account
    match (if li.1 < 0 then Tangle.queryBalance t inp.account else Except.ok li.1) with
    | Except.error e => Except.error e
    | Except.ok balq =>
      let bal := balq - inp.amount
      if bal < 0 then Except.error (nodeHash, inp.account, bal)
      else
        let bm :=
          if li.2 = balanceMap.length then balanceMap ++ [(inp.account, bal)]
          else
            match balanceMap[li.2]? with
            | some entry => balanceMap.set li.2 (entry.1, bal)
            | none => balanceMap
        balanceSimLoop t nodeHash rest bm

/-- The whole balance simulation of `add` for a node (empty cache at
entry). -/
def balanceSim (t : Tangle) (n : AddNode) : Except (String × Nat × ℚ) Unit :=
  balanceSimLoop t n.tx.hash n.tx.inputs []

/-- The parent-validation loop of `add` (tangle.cpp lines 449-458): each
parent must be found in the graph (else `NodeNotFound`), and must not
already list the node among its children (else the re-insertion
error). -/
def parentsCheck (t : Tangle) (n : AddNode) : List Nat → Option AddErr
  | [] => none
  | p :: rest =>
    match t.nodes[p]? with
    | none => some (AddErr.nodeNotFound (""))
    | some pn =>
      match t.find pn.tx.hash with
      | none => some (AddErr.nodeNotFound pn.tx.hash)
      | some _ =>
        if pn.children.any (fun c =>
            match t.nodes[c]? with
            | some cn => cn.tx.hash == n.tx.hash
            | none => false) then
          some (AddErr.alreadyChild pn.tx.hash n.tx.hash)
        else parentsCheck t n rest

/-- Append a child index to the child list of the node at index `i`. -/
def updateChildren (ns : List TNode) (i : Nat) (c : Nat) : List TNode :=
  match ns[i]? with
  | none => ns
  | some nd => ns.set i { nd with children := nd.children ++ [c] }

/-- Modelled from the spec: the genesis-candidate buffer is a
`circular_buffer` (its header is not among the sources) holding the last
`GENESIS_CANDIDATE_THRESHOLD = 3` tip-set snapshots; pushing onto a full
buffer drops the oldest entry. -/
def pushCandidate (cands : List (List Nat)) (snapshot : List Nat) : List (List Nat) :=
  let l := cands ++ [snapshot]
  if 3 < l.length then l.drop (l.length - 3) else l

/-- One iteration of the per-parent loop in the critical region of `add`
(tangle.cpp lines 466-479): erase the parent from the tip list
(`std::erase` removes every occurrence), append the new node's index to
the children of `find(parent->hash)`, and append the new node's index to
the tip list. -/
def addParentStep (newIdx : Nat) (acc : Tangle) (p : Nat) : Tangle :=
  match acc.nodes[p]? with
  | none => acc
  | some pn =>
    let acc1 := { acc with tips := acc.tips.filter (fun x => x ≠ p) }
    let acc2 :=
      match acc1.find pn.tx.hash with
      | some fi => { acc1 with nodes := updateChildren acc1.nodes fi newIdx }
      | none => acc1
    { acc2 with tips := acc2.tips ++ [newIdx] }

/-- The critical region of `add` (tangle.cpp lines 461-485): allocate the
node, run `addParentStep` over the parents in order (so the node's index
is appended to the tip list once per parent), then snapshot the tips as a
genesis candidate when at most `GENESIS_CANDIDATE_THRESHOLD = 3` tips
remain. -/
def addApply (t : Tangle) (n : AddNode) : Tangle :=
  let newIdx := t.nodes.length
  let node : TNode := { tx := n.tx, isGenesis := false, parents := n.parents,
                        children := [], cumulativeWeight := 0 }
  let t1 : Tangle := { t with nodes := t.nodes ++ [node] }
  let t2 := n.parents.foldl (addParentStep newIdx) t1
  if t2.tips.length ≤ 3 then
    { t2 with genesisCandidates := pushCandidate t2.genesisCandidates t2.tips }
  else t2

/-- `Tangle::add`: the validation cascade followed by the critical
region.  Returns the tangle after the call together with the thrown
error, if any (every throw happens before any mutation, so the tangle
comes back unchanged alongside an error). -/
def Tangle.add (t : Tangle) (n : AddNode) : Tangle × Option AddErr :=
  if validateTransaction n.tx then
    if validateTransactionTotals n.tx then
      match validateTransactionMined n.tx with
      | some true =>
        match balanceSim t n with
        | Except.error e => (t, some (AddErr.invalidBalance e.1 e.2.1 e.2.2))
        | Except.ok _ =>
          match parentsCheck t n n.parents with
          | some e => (t, some e)
          | none => (addApply t n, none)
      | some false => (t, some AddErr.unminedTransaction)
      | none => (t, some AddErr.base64Invalid)
    else (t, some AddErr.valueConservation)
  else (t, some AddErr.validationFailed)

/-- The allocation step at the top of `add`'s critical region: the node
is appended to the store (index `t.nodes.length`) before the per-parent
loop runs. -/
def allocNode (t : Tangle) (n : AddNode) : Tangle :=
  { t with nodes := t.nodes ++ [{ tx := n.tx, isGenesis := false, parents := n.parents,
                                  children := [], cumulativeWeight := 0 }] }

/-- The transaction hash stored at a node index (`""` when the index is
out of range). -/
def hashAt (t : Tangle) (p : Nat) : String :=
  ((t.nodes[p]?).map (fun nd => nd.tx.hash)).getD ""

/-! ## Tip removal and genesis replacement (`tangle.cpp` lines 380-397,
497-531) -/

/-- `Tangle::removeTip`: refuse a node absent from the graph
(`NodeNotFound`) or one that still has children (`NotATip`, reusing the
`AddErr` carrier `alreadyChild` is wrong — it gets its own error). -/
inductive TipErr where
  | nodeNotFound (h : String)
  | notATip (h : String)
deriving Repr, DecidableEq

/-- `Tangle::removeTip` (tangle.cpp lines 497-531): null pointers are
ignored; the node must be findable and childless; then every parent's
child list drops the node (a parent left childless is pushed onto the
tips), the node leaves the tip list, and its parent links are cleared. -/
def Tangle.removeTip (t : Tangle) (tip : Nat) : Tangle × Option TipErr :=
  match t.nodes[tip]? with
  | none => (t, none)
  | some nd =>
    if (t.find nd.tx.hash).isNone then (t, some (TipErr.nodeNotFound nd.tx.hash))
    else if nd.children ≠ [] then (t, some (TipErr.notATip nd.tx.hash))
    else
      let t1 := nd.parents.foldl (fun (acc : Tangle) p =>
        match acc.nodes[p]? with
        | none => acc
        | some pn =>
          let newChildren := pn.children.filter (fun c => c ≠ tip)
          let acc1 := { acc with nodes := acc.nodes.set p { pn with children := newChildren } }
          if newChildren = [] then { acc1 with tips := acc1.tips ++ [p] } else acc1) t
      let t2 := { t1 with tips := t1.tips.filter (fun x => x ≠ tip) }
      let t3 :=
        match t2.nodes[tip]? with
        | none => t2
        | some nd2 => { t2 with nodes := t2.nodes.set tip { nd2 with parents := [] } }
      (t3, none)

/-- One pass of `setGenesis`'s inner teardown loop
(`for(i...; i < tips.size(); i++) removeTip(tips[0])`): the size is
re-read from the live (shrinking) tip list each iteration. -/
def removeTipsPass (t : Tangle) : Nat → Nat → Tangle × Option TipErr
  | 0, _ => (t, none)
  | fuel + 1, i =>
    if i < t.tips.length then
      match t.tips[0]? with
      | none => (t, none)
      | some tip =>
        match t.removeTip tip with
        | (t1, none) => removeTipsPass t1 fuel (i + 1)
        | (t1, some e) => (t1, some e)
    else (t, none)

/-- The outer teardown loop of `setGenesis`: repeat passes while the
genesis still has children.  `fuel` bounds the number of passes;
`nodes.length + 1` always suffices for a well-formed tangle. -/
def setGenesisLoop (t : Tangle) : Nat → Tangle × Option TipErr
  | 0 => (t, none)
  | fuel + 1 =>
    match t.nodes[0]? with
    | none => (t, none)
    | some g =>
      if g.children = [] then (t, none)
      else
        match removeTipsPass t (t.nodes.length + t.tips.length + 1) 0 with
        | (t1, none) => setGenesisLoop t1 fuel
        | (t1, some e) => (t1, some e)

/-- `Tangle::setGenesis` (tangle.cpp lines 380-397): mark the new node
as genesis, tear the old graph down tip by tip, and install the node as
the new store (index 0).  The tip list survives the swap verbatim (its
indices are only meaningful when the teardown was trivial — a childless
current genesis — which holds in every situation proved about below). -/
def Tangle.setGenesis (t : Tangle) (node : TNode) : Tangle × Option TipErr :=
  let g := { node with isGenesis := true }
  match setGenesisLoop t (t.nodes.length + 1) with
  | (t1, some e) => (t1, some e)
  | (t1, none) =>
    ({ nodes := [g], tips := t1.tips, genesisCandidates := t1.genesisCandidates }, none)

/-! ## `TransactionNode::create(tangle, transaction)` (tangle.cpp lines
25-38 and 48-62) -/

/-- Resolve each parent hash in the tangle (`t.find`), failing
`NodeNotFound` at the first miss. -/
def resolveParents (t : Tangle) : List String → Except AddErr (List Nat)
  | [] => Except.ok []
  | h :: rest =>
    match t.find h with
    | some i => (resolveParents t rest).map (fun l => i :: l)
    | none => Except.error (AddErr.nodeNotFound h)

/-- Hash equality of two node indices (the equality predicate handed to
`util::removeDuplicates` by the `TransactionNode` constructor). -/
def sameHashAt (t : Tangle) (x y : Nat) : Bool :=
  match t.nodes[x]?, t.nodes[y]? with
  | some nx, some ny => nx.tx.hash == ny.tx.hash
  | _, _ => false

/-- `std::unique` walk: drop every element whose hash equals the hash of
the last kept element `x`. -/
def uniqAdjRest (t : Tangle) (x : Nat) : List Nat → List Nat
  | [] => []
  | y :: rest =>
    if sameHashAt t x y then uniqAdjRest t x rest else y :: uniqAdjRest t y rest

/-- `std::unique` step of `util::removeDuplicates(v, equal)`: keep the
first element of every run of hash-equal adjacent elements. -/
def uniqAdjByHash (t : Tangle) : List Nat → List Nat
  | [] => []
  | x :: rest => x :: uniqAdjRest t x rest

/-- The parent normalization of the `TransactionNode` constructor
(tangle.cpp lines 27-38): `removeDuplicates` sorts the parent pointers
(modelled: by index) and drops adjacent hash duplicates. -/
def dedupParents (t : Tangle) (ps : List Nat) : List Nat :=
  uniqAdjByHash t (insertionSortBy (fun a b => decide (a ≤ b)) ps)

/-- The hashes of a list of parent nodes. -/
def parentHashList (t : Tangle) (ps : List Nat) : List String :=
  ps.filterMap (fun p => (t.nodes[p]?).map (fun nd => nd.tx.hash))

/-- `TransactionNode::create(t, trx)` (tangle.cpp lines 48-62): resolve
the transaction's parent hashes to nodes (throwing `NodeNotFound` on a
miss), build a node through the constructors, then overwrite timestamp,
nonce and target with the transmitted values and recompute the hash. -/
def createNodeFromTx (t : Tangle) (trx : Transaction) : Except AddErr AddNode :=
  match resolveParents t trx.parentHashes with
  | Except.error e => Except.error e
  | Except.ok ps =>
    let parents := dedupParents t ps
    let t0 := mkTransaction (parentHashList t parents) trx.inputs trx.outputs
      trx.miningDifficulty trx.nonce trx.timestamp
    let t1 := { t0 with miningTarget := trx.miningTarget }
    Except.ok { tx := { t1 with hash := hashTransaction t1 }, parents := parents }

/-! ## The networked tangle (`networking.hpp` / `networking_tangle.cpp`)

The breep transport is the out-of-scope broadcast bus; only its
self-delivery path matters for the claims below (saving/loading routes
messages through the bus back to the same process).  Serialization and
gzip compression of messages are bijective by contract, so a message
travels as its field record; the one observable deserialization effect —
`operator>>` re-deriving transaction hashes, and `SyncGenesisRequest`'s
deserializer forcing `genesis.hash = claimedHash` — is applied
explicitly by the `deliver...` functions. -/

/-- `NetworkedTangle`'s state, as far as the tangle logic reads it:
the graph, this peer's keys and id, the peer-key directory, the
connected-peer set, `genesisSyncExpectedHash`, the orphan queue
(`networkAdditionQueue`), and the `updateWeights` flag. -/
structure NetState where
  tangle : Tangle
  selfId : Nat
  personalKeys : Nat
  peerKeys : List (Nat × Nat)
  connectedPeers : List Nat
  genesisSyncExpectedHash : String
  networkAdditionQueue : List (Transaction × Nat × Sig)
  updateWeights : Bool
deriving Repr, DecidableEq

/-- Association lookup in the peer-key directory. -/
def lookupPeer (m : List (Nat × Nat)) (peer : Nat) : Option Nat :=
  match m with
  | [] => none
  | (p, k) :: rest => if p == peer then some k else lookupPeer rest peer

/-- A fresh `NetworkedTangle` after `setKeyPair` (networking_tangle.cpp
lines 67-71): a fresh tangle, the personal keys installed and registered
under the peer's own id, nothing else. -/
def freshNetState (ts : Int) (nonceSeed : Nat) (selfId keys : Nat) : NetState :=
  { tangle := freshTangle ts nonceSeed, selfId := selfId, personalKeys := keys,
    peerKeys := [(selfId, keys)], connectedPeers := [],
    genesisSyncExpectedHash := "Invalid", networkAdditionQueue := [],
    updateWeights := true }

/-- `NetworkedTangle::SyncGenesisRequest` (networking.hpp lines
530-535). -/
structure SyncGenesisRequest where
  claimedHash : String
  actualHash : String
  validitySignature : Sig
  genesis : Transaction
deriving Repr, DecidableEq

/-- The `SyncGenesisRequest` constructor: claimed = the transaction's
stored hash, actual = its recomputed hash, signature over their
concatenation. -/
def mkSyncGenesisRequest (trx : Transaction) (keys : Nat) : SyncGenesisRequest :=
  { claimedHash := trx.hash, actualHash := hashTransaction trx,
    validitySignature := signMessage keys (trx.hash ++ hashTransaction trx),
    genesis := trx }

/-- The deserialization of a received `Transaction` (`operator>>`,
transaction.cpp lines 242-290): the record is rebuilt through the
constructor (re-sorting parent hashes), the timestamp, nonce and target
are restored, and the hash is recomputed from the restored fields. -/
def deserializeTransaction (t : Transaction) : Transaction :=
  let t0 := mkTransaction t.parentHashes t.inputs t.outputs t.miningDifficulty t.nonce t.timestamp
  let t1 := { t0 with miningTarget := t.miningTarget }
  { t1 with hash := hashTransaction t1 }

/-- Bus delivery of a `SyncGenesisRequest` (its `operator>>`,
networking_tangle.cpp lines 619-634): the embedded genesis is
deserialized and its hash forced to the claimed hash. -/
def deliverSyncGenesis (m : SyncGenesisRequest) : SyncGenesisRequest :=
  { m with genesis := { deserializeTransaction m.genesis with hash := m.claimedHash } }

/-- What `SyncGenesisRequest::listener` can do: ignore the message,
answer with key/resync requests, throw, or install the genesis. -/
inductive SyncOutcome where
  | ignored
  | requestedKey
  | threw
  | installed
deriving Repr, DecidableEq

/-- Force the stored hash of the genesis node (index 0) — the listener's
`util::mutable_cast(t.genesis->hash) = claimedHash`. -/
def forceGenesisHash (t : Tangle) (h : String) : Tangle :=
  match t.nodes[0]? with
  | none => t
  | some g => { t with nodes := t.nodes.set 0 { g with tx := { g.tx with hash := h } } }

/-- `NetworkedTangle::SyncGenesisRequest::listener` (networking_tangle.cpp
lines 478-511): ignore unless a genesis is expected; ignore when the
message's genesis hash equals the current genesis hash; throw on an
unexpected hash, a recomputation mismatch with `actualHash`, a failing
signature, or non-empty genesis inputs; ask for the key (and a resync)
when the sender is unknown; otherwise install via
`setGenesis(create(t, genesis))`, force the new genesis's hash to the
claimed hash, and clear the expected hash. -/
def syncGenesisListener (st : NetState) (src : Nat) (m : SyncGenesisRequest) :
    NetState × SyncOutcome :=
  if st.genesisSyncExpectedHash = "Invalid" then (st, SyncOutcome.ignored)
  else
    match st.tangle.nodes[0]? with
    | none => (st, SyncOutcome.ignored)
    | some g =>
      if g.tx.hash = m.genesis.hash then (st, SyncOutcome.ignored)
      else if st.genesisSyncExpectedHash ≠ m.genesis.hash then (st, SyncOutcome.threw)
      else if hashTransaction m.genesis ≠ m.actualHash then (st, SyncOutcome.threw)
      else
        match lookupPeer st.peerKeys src with
        | none => (st, SyncOutcome.requestedKey)
        | some pk =>
          if ¬ verifyMessage pk (m.genesis.hash ++ hashTransaction m.genesis) m.validitySignature then
            (st, SyncOutcome.threw)
          else if m.genesis.inputs ≠ [] then (st, SyncOutcome.threw)
          else
            match createNodeFromTx st.tangle m.genesis with
            | Except.error _ => (st, SyncOutcome.threw)
            | Except.ok an =>
              match st.tangle.setGenesis
                  { tx := an.tx, isGenesis := true, parents := an.parents,
                    children := [], cumulativeWeight := 0 } with
              | (t1, some _) => ({ st with tangle := t1 }, SyncOutcome.threw)
              | (t1, none) =>
                let st1 := { st with tangle := forceGenesisHash t1 m.claimedHash }
                ({ st1 with genesisSyncExpectedHash := "Invalid" }, SyncOutcome.installed)

/-- `NetworkedTangle::AddTransactionRequestBase` (networking.hpp lines
571-576), also the payload of both add variants. -/
structure AddTransactionRequest where
  validityHash : String
  validitySignature : Sig
  transaction : Transaction
deriving Repr, DecidableEq

/-- The request constructor: hash of the transaction, signed. -/
def mkAddTransactionRequest (trx : Transaction) (keys : Nat) : AddTransactionRequest :=
  { validityHash := trx.hash, validitySignature := signMessage keys trx.hash,
    transaction := trx }

/-- Bus delivery of an add request (its `operator>>`): the embedded
transaction is deserialized (and thereby re-hashed). -/
def deliverAddRequest (m : AddTransactionRequest) : AddTransactionRequest :=
  { m with transaction := deserializeTransaction m.transaction }

/-- `AddTransactionRequestBase::attemptToAddTransaction`
(networking_tangle.cpp lines 550-597).  Everything is inside a
`try/catch` that discards the transaction, so each failure path returns
a state: an unknown peer makes it look up the sender among the connected
peers (`peers().at` throws — discarding — when the sender is gone) and
enqueue the transaction while requesting the key; a bad signature
discards; a missing parent enqueues as an orphan; otherwise the
structural `Tangle::add` runs, its exceptions discarded. -/
def attemptToAddTransaction (st : NetState) (trx : Transaction) (peerID : Nat)
    (sig : Sig) : NetState :=
  match lookupPeer st.peerKeys peerID with
  | none =>
    if peerID ∈ st.connectedPeers then
      { st with networkAdditionQueue := st.networkAdditionQueue ++ [(trx, peerID, sig)] }
    else st
  | some pk =>
    if ¬ verifyMessage pk trx.hash sig then st
    else if trx.parentHashes.all (fun h => (st.tangle.find h).isSome) then
      match createNodeFromTx st.tangle trx with
      | Except.error _ => st
      | Except.ok an =>
        match st.tangle.add an with
        | (t1, none) => { st with tangle := t1 }
        | (_, some _) => st
    else
      { st with networkAdditionQueue := st.networkAdditionQueue ++ [(trx, peerID, sig)] }

/-- The drain loop of `AddTransactionRequestBase::listener`: pop and
retry exactly `listSize` entries (the queue length snapshotted before the
loop); re-orphaned entries go to the back and are not retried in this
pass. -/
def drainQueue (st : NetState) : Nat → NetState
  | 0 => st
  | k + 1 =>
    match st.networkAdditionQueue with
    | [] => st
    | (trx, pid, sg) :: rest =>
      drainQueue (attemptToAddTransaction { st with networkAdditionQueue := rest } trx pid sg) k

/-- `AddTransactionRequestBase::listener` (networking_tangle.cpp lines
519-541): throw `InvalidHash` when the transaction's hash differs from
`validityHash` (the exception leaves the listener — second component
`true`), else attempt the add and drain the orphan queue once
(`shrinkNetworkQueue` only trims capacity and has no observable
effect). -/
def addTransactionListener (st : NetState) (src : Nat) (m : AddTransactionRequest) :
    NetState × Bool :=
  if m.transaction.hash ≠ m.validityHash then (st, true)
  else
    let st1 := attemptToAddTransaction st m.transaction src m.validitySignature
    (drainQueue st1 st1.networkAdditionQueue.length, false)

/-- `SynchronizationAddTransactionRequest::listener` (networking.hpp
lines 661-665): clear `updateWeights`, run the base listener, restore it
— unless the base listener threw, in which case the restore line is
never reached. -/
def syncAddListener (st : NetState) (src : Nat) (m : AddTransactionRequest) :
    NetState × Bool :=
  match addTransactionListener { st with updateWeights := false } src m with
  | (st1, true) => (st1, true)
  | (st1, false) => ({ st1 with updateWeights := true }, false)

/-! ## Persistence (`networking_tangle.cpp` lines 295-358) -/

/-- `Tangle::listTransactions` /
`TransactionNode::recursivelyListTransactions` (tangle.cpp lines
223-235): a depth-first preorder walk from the genesis collecting each
node once (deduplicated by hash).  `fuel` bounds the recursion depth;
`nodes.length + 1` suffices on creation-ordered children. -/
def listTransactionsAux (t : Tangle) : Nat → Nat → List Nat → List Nat
  | 0, _, acc => acc
  | fuel + 1, i, acc =>
    match t.nodes[i]? with
    | none => acc
    | some nd =>
      if acc.any (fun j =>
          match t.nodes[j]? with
          | some m => m.tx.hash == nd.tx.hash
          | none => false) then acc
      else nd.children.foldl (fun a c => listTransactionsAux t fuel c a) (acc ++ [i])

/-- Entry point of the listing (start at the genesis, empty
accumulator). -/
def Tangle.listTransactions (t : Tangle) : List Nat :=
  listTransactionsAux t (t.nodes.length + 1) 0 []

/-- The sort predicate of `saveTangle` (networking_tangle.cpp lines
300-304): the genesis (recognized by hash) comes first, everything else
orders by timestamp. -/
def saveComparator (genesisHash : String) (a b : Transaction) : Bool :=
  if a.hash == genesisHash then true
  else if b.hash == genesisHash then false
  else decide (a.timestamp < b.timestamp)

/-- `NetworkedTangle::saveTangle`: list all transactions, stably sort
them with the genesis forced to the front and the rest by timestamp, and
serialize them in that order (the gzip-compressed byte stream is the
transaction sequence, serialization being bijective by contract). -/
def saveTangle (t : Tangle) : List Transaction :=
  let txs := (t.listTransactions).filterMap (fun i => (t.nodes[i]?).map (fun nd => nd.tx))
  match txs with
  | [] => []
  | g :: _ => insertionSortBy (fun a b => !(saveComparator g.hash b a)) txs

/-- `NetworkedTangle::loadTangle` (networking_tangle.cpp lines 329-358):
deserialize the first transaction, record its hash as the expected
genesis and self-dispatch a `SyncGenesisRequest`; self-dispatch a
`SynchronizationAddTransactionRequest` for every remaining transaction.
(The final self-dispatched `UpdateWeightsRequest` only refreshes weights
on a background thread and has no structural effect.) -/
def loadTangle (st : NetState) (stream : List Transaction) : NetState :=
  match stream with
  | [] => st
  | g :: rest =>
    let g1 := deserializeTransaction g
    let st1 := { st with genesisSyncExpectedHash := g1.hash }
    let st2 := (syncGenesisListener st1 st1.selfId
      (deliverSyncGenesis (mkSyncGenesisRequest g1 st1.personalKeys))).1
    rest.foldl (fun s trx =>
      (syncAddListener s s.selfId
        (deliverAddRequest (mkAddTransactionRequest (deserializeTransaction trx) s.personalKeys))).1) st2

/-! ## Replay machinery and stream predicates (used to state the
persistence round-trip) -/

/-- A tangle holding exactly one genesis node with transaction `g`
(what a tangle looks like right after its genesis is installed). -/
def genesisTangle (g : Transaction) : Tangle :=
  { nodes := [{ tx := g, isGenesis := true, parents := [], children := [],
                cumulativeWeight := 0 }],
    tips := [], genesisCandidates := [] }

/-- One replayed insertion: `TransactionNode::create(t, trx)` followed by
the structural `Tangle::add`; `none` when either throws. -/
def replayStep (t : Tangle) (trx : Transaction) : Option Tangle :=
  match createNodeFromTx t trx with
  | Except.error _ => none
  | Except.ok an =>
    match t.add an with
    | (t1, none) => some t1
    | (_, some _) => none

/-- Replay a transaction sequence by successful structural adds. -/
def replayAll (t : Tangle) : List Transaction → Option Tangle
  | [] => some t
  | trx :: rest =>
    match replayStep t trx with
    | none => none
    | some t1 => replayAll t1 rest

/-- The `NetState` shape `loadTangle` maintains after the genesis was
installed: the tangle under construction, self-keyed peer directory,
no connected peers, no expected genesis, an empty orphan queue. -/
def mkLoadState (selfId keys : Nat) (t : Tangle) : NetState :=
  { tangle := t, selfId := selfId, personalKeys := keys,
    peerKeys := [(selfId, keys)], connectedPeers := [],
    genesisSyncExpectedHash := "Invalid", networkAdditionQueue := [],
    updateWeights := true }

/-- A transaction is well-formed for replay: it passes full validation
(stored hash and signatures), conserves value, is mined, and its parent
hashes are already in normal (sorted, deduplicated) form — so that
deserialization reproduces it exactly. -/
def txWellFormed (tx : Transaction) : Bool :=
  validateTransaction tx && validateTransactionTotals tx
    && (validateTransactionMined tx == some true)
    && (sortDedup tx.parentHashes == tx.parentHashes)

/-- Every transaction's parents appear among the hashes seen before it
(the stream lists parents before children). -/
def streamParentsClosed (seen : List String) : List Transaction → Bool
  | [] => true
  | tx :: rest =>
    tx.parentHashes.all (fun h => decide (h ∈ seen))
      && streamParentsClosed (seen ++ [tx.hash]) rest

/-! ## Concrete instances for the counterexamples and witnesses

`ce…`: a seven-node tangle whose transactions all carry the same
timestamp (perfectly realistic: they were inserted within one second).
Node `D` has two parents, and its second parent `C` follows it in the
saved stream. -/

def ceG : Transaction := mkTransaction [] [] [] 3 0 100

def ceA : Transaction := mkTransaction [ceG.hash] [] [] 3 1 100

def ceB : Transaction := mkTransaction [ceG.hash] [] [] 3 2 100

def ceH : Transaction := mkTransaction [ceG.hash] [] [] 3 3 100

def ceF : Transaction := mkTransaction [ceH.hash] [] [] 3 4 100

def ceC : Transaction := mkTransaction [ceB.hash, ceF.hash] [] [] 3 5 100

def ceD : Transaction := mkTransaction [ceA.hash, ceC.hash] [] [] 3 6 100

/-- The tangle after inserting A, B, H, F, C (everything but D). -/
def ceTangle5 : Tangle :=
  (replayAll (freshTangle 100 0) [ceA, ceB, ceH, ceF, ceC]).getD (freshTangle 100 0)

/-- The node `Tangle::add` receives for D (parents A and C). -/
def ceNodeD : AddNode :=
  (createNodeFromTx ceTangle5 ceD).toOption.getD { tx := ceD, parents := [] }

/-- The full seven-node tangle. -/
def ceTangle : Tangle := ((ceTangle5.add ceNodeD).1)

/-- The result of saving `ceTangle` and loading the stream into a fresh
self-keyed networked tangle (peer id 9, keys 9). -/
def ceLoaded : NetState := loadTangle (freshNetState 0 55 9 9) (saveTangle ceTangle)

/-- The same topology with strictly increasing timestamps (the witness
for the amended round-trip statement). -/
def wtG : Transaction := mkTransaction [] [] [] 3 0 100

def wtA : Transaction := mkTransaction [wtG.hash] [] [] 3 1 101

def wtB : Transaction := mkTransaction [wtG.hash] [] [] 3 2 102

def wtH : Transaction := mkTransaction [wtG.hash] [] [] 3 3 103

def wtF : Transaction := mkTransaction [wtH.hash] [] [] 3 4 104

def wtC : Transaction := mkTransaction [wtB.hash, wtF.hash] [] [] 3 5 105

def wtD : Transaction := mkTransaction [wtA.hash, wtC.hash] [] [] 3 6 106

/-- The full timestamp-ordered seven-node tangle. -/
def wtTangle : Tangle :=
  (replayAll (freshTangle 100 0) [wtA, wtB, wtH, wtF, wtC, wtD]).getD (freshTangle 100 0)

/-- The saved stream of `wtTangle`. -/
def wtStream : List Transaction := saveTangle wtTangle

/-- Head (the genesis transaction) of the saved stream. -/
def wtHead : Transaction := wtStream.headD wtG

/-- The non-genesis remainder of the saved stream. -/
def wtRest : List Transaction := wtStream.tail

/-- The tangle obtained by replaying the saved stream onto its genesis. -/
def wtFinal : Tangle :=
  (replayAll (genesisTangle wtHead) wtRest).getD (freshTangle 0 0)

/-- The diamond graph `0 → {1, 2} → 3` with every node at the default
difficulty 3 (own weight `3/5`): the smallest DAG where a node has two
parents. -/
def diamond : WGraph :=
  { size := 4, own := fun _ => ownWeight 3,
    children := fun i =>
      if i = 0 then [1, 2] else if i = 1 then [3] else if i = 2 then [3] else [],
    ok := by
      intro i c h
      by_cases h0 : i = 0
      · subst h0; simp at h; omega
      · by_cases h1 : i = 1
        · subst h1; simp at h; omega
        · by_cases h2 : i = 2
          · subst h2; simp at h; omega
          · simp [h0, h1, h2] at h }

/-- A three-node chain `0 → 1 → 2` (every node one parent) for the
witness of the amended weight statement. -/
def chain3 : WGraph :=
  { size := 3, own := fun _ => ownWeight 3,
    children := fun i => if i = 0 then [1] else if i = 1 then [2] else [],
    ok := by
      intro i c h
      by_cases h0 : i = 0
      · subst h0; simp at h; omega
      · by_cases h1 : i = 1
        · subst h1; simp at h; omega
        · simp [h0, h1] at h }

/-- The `NetState` of a peer that asked for a genesis it already has:
`genesisSyncExpectedHash` equals the current genesis's hash. -/
def c8State : NetState :=
  { freshNetState 100 0 9 9 with genesisSyncExpectedHash := ceG.hash }

/-- A `SyncGenesisRequest` for that same genesis whose `actualHash` field
was corrupted in transit (it does not match the recomputation). -/
def c8Msg : SyncGenesisRequest :=
  { claimedHash := ceG.hash, actualHash := "AAAB",
    validitySignature := signMessage 9 (ceG.hash ++ "AAAB"), genesis := ceG }

/-- A transaction whose mining difficulty exceeds its hash length (for
the boundary-guard witness). -/
def c10Tx : Transaction := { ceG with miningDifficulty := 99 }

/-- A single genesis with no children (the walk set of node 0 is empty). -/
def c9Lone : CGraph :=
  { size := 1, children := fun _ => [], parents := fun _ => [],
    isGen := fun i => i = 0 }

/-- A genesis with one child: node 1's walk set is `{0}`, nonempty. -/
def c9Pair : CGraph :=
  { size := 2, children := fun i => if i = 0 then [1] else [],
    parents := fun i => if i = 1 then [0] else [],
    isGen := fun i => i = 0 }

/-- A node failing full validation (its stored hash is not its
recomputed hash), for the error-order witness. -/
def c1BadNode : AddNode := { tx := { ceD with hash := "AAAB" }, parents := [] }

/-! # Theorems -/

/-! ## Generic facts about the modelled stable insertion sort -/

theorem orderedInsertBy_perm {α : Type} (r : α → α → Bool) (a : α) (l : List α) :
    (orderedInsertBy r a l).Perm (a :: l) := by
  induction l with
  | nil => simp [orderedInsertBy]
  | cons b l ih =>
    by_cases h : r a b
    · simp [orderedInsertBy, h]
    · simp only [orderedInsertBy, h, Bool.false_eq_true, if_false]
      exact (ih.cons b).trans (List.Perm.swap a b l)

theorem insertionSortBy_perm {α : Type} (r : α → α → Bool) (l : List α) :
    (insertionSortBy r l).Perm l := by
  induction l with
  | nil => simp [insertionSortBy]
  | cons b l ih =>
    exact (orderedInsertBy_perm r b (insertionSortBy r l)).trans (ih.cons b)

theorem orderedInsertBy_pairwise {α : Type} (r : α → α → Bool)
    (htot : ∀ x y, r x y = true ∨ r y x = true)
    (htrans : ∀ x y z, r x y = true → r y z = true → r x z = true)
    (a : α) (l : List α) (hl : l.Pairwise (fun x y => r x y = true)) :
    (orderedInsertBy r a l).Pairwise (fun x y => r x y = true) := by
  induction l with
  | nil => simp [orderedInsertBy]
  | cons b l ih =>
    rcases hl with _ | ⟨hb, hl⟩
    by_cases h : r a b
    · rw [orderedInsertBy, if_pos h]
      refine List.Pairwise.cons ?_ (List.Pairwise.cons hb hl)
      intro x hx
      rcases List.mem_cons.mp hx with rfl | hx
      · exact h
      · exact htrans a b x h (hb x hx)
    · simp only [orderedInsertBy, h, Bool.false_eq_true, if_false]
      refine List.Pairwise.cons ?_ (ih hl)
      intro x hx
      have hx2 := (orderedInsertBy_perm r a l).mem_iff.mp hx
      rcases List.mem_cons.mp hx2 with rfl | hx2
      · rcases htot b x with hgood | hbad
        · exact hgood
        · exact absurd hbad (by simpa using h)
      · exact hb x hx2

theorem insertionSortBy_pairwise {α : Type} (r : α → α → Bool)
    (htot : ∀ x y, r x y = true ∨ r y x = true)
    (htrans : ∀ x y z, r x y = true → r y z = true → r x z = true)
    (l : List α) :
    (insertionSortBy r l).Pairwise (fun x y => r x y = true) := by
  induction l with
  | nil => simp [insertionSortBy]
  | cons b l ih => exact orderedInsertBy_pairwise r htot htrans b _ ih

theorem insertionSortBy_sorted_eq {α : Type} (r : α → α → Bool) (l : List α)
    (hl : l.Pairwise (fun x y => r x y = true)) : insertionSortBy r l = l := by
  induction l with
  | nil => simp [insertionSortBy]
  | cons b l ih =>
    rcases hl with _ | ⟨hb, hl⟩
    simp only [insertionSortBy, ih hl]
    cases l with
    | nil => simp [orderedInsertBy]
    | cons c l => simp [orderedInsertBy, hb c (by simp)]

theorem perm_pairwise_strict_eq {α : Type} {R : α → α → Prop} :
    ∀ {l₁ l₂ : List α}, l₁.Perm l₂ → l₁.Pairwise R → l₂.Pairwise R →
    (∀ a b, R a b → R b a → False) → l₁ = l₂ := by
  intro l₁
  induction l₁ with
  | nil => intro l₂ hp _ _ _; simpa using hp.nil_eq
  | cons a l₁ ih =>
    intro l₂ hp h1 h2 hasym
    cases l₂ with
    | nil => exact absurd hp.symm.nil_eq (by simp)
    | cons b l₂ =>
      rcases h1 with _ | ⟨ha, h1⟩
      rcases h2 with _ | ⟨hb, h2⟩
      have hab : a = b := by
        by_contra hne
        have hamem : a ∈ b :: l₂ := hp.mem_iff.mp (by simp)
        have haml2 : a ∈ l₂ := by
          rcases List.mem_cons.mp hamem with rfl | h
          · exact absurd rfl hne
          · exact h
        have hbmem : b ∈ a :: l₁ := hp.mem_iff.mpr (by simp)
        have hbml1 : b ∈ l₁ := by
          rcases List.mem_cons.mp hbmem with rfl | h
          · exact absurd rfl (by exact fun h2 => hne h2.symm)
          · exact h
        exact hasym a b (ha b hbml1) (hb a haml2)
      subst hab
      have hperm : l₁.Perm l₂ := (List.perm_cons a).mp hp
      rw [ih hperm h1 h2 hasym]

/-! ## Facts about the byte-lexicographic string order -/

theorem strLtChars_asymm : ∀ (a b : List Char),
    strLtChars a b = true → strLtChars b a = true → False := by
  intro a
  induction a with
  | nil =>
    intro b h1 h2
    cases b with
    | nil => simp [strLtChars] at h1
    | cons y ys => simp [strLtChars] at h2
  | cons x xs ih =>
    intro b h1 h2
    cases b with
    | nil => simp [strLtChars] at h1
    | cons y ys =>
      simp only [strLtChars] at h1 h2
      by_cases hxy : x.toNat < y.toNat
      · have hnyx : ¬ y.toNat < x.toNat := by omega
        simp [hnyx, hxy] at h2
      · by_cases hyx : y.toNat < x.toNat
        · simp [hxy, hyx] at h1
        · simp [hxy, hyx] at h1 h2
          exact ih ys h1 h2

theorem strLtChars_connex : ∀ (a b : List Char),
    strLtChars a b = false → strLtChars b a = false → a = b := by
  intro a
  induction a with
  | nil =>
    intro b h1 _
    cases b with
    | nil => rfl
    | cons y ys => simp [strLtChars] at h1
  | cons x xs ih =>
    intro b h1 h2
    cases b with
    | nil => simp [strLtChars] at h2
    | cons y ys =>
      simp only [strLtChars] at h1 h2
      by_cases hxy : x.toNat < y.toNat
      · simp [hxy] at h1
      · by_cases hyx : y.toNat < x.toNat
        · simp [hyx] at h2
        · simp [hxy, hyx] at h1 h2
          have hchar : x = y := Char.eq_of_val_eq (by
            have hn : x.toNat = y.toNat := by omega
            exact UInt32.eq_of_val_eq (Fin.eq_of_val_eq hn))
          rw [hchar, ih ys h1 h2]

theorem strLtChars_trans : ∀ (a b c : List Char),
    strLtChars a b = true → strLtChars b c = true → strLtChars a c = true := by
  intro a
  induction a with
  | nil =>
    intro b c h1 h2
    cases b with
    | nil => simp [strLtChars] at h1
    | cons y ys =>
      cases c with
      | nil => simp [strLtChars] at h2
      | cons z zs => simp [strLtChars]
  | cons x xs ih =>
    intro b c h1 h2
    cases b with
    | nil => simp [strLtChars] at h1
    | cons y ys =>
      cases c with
      | nil => simp [strLtChars] at h2
      | cons z zs =>
        simp only [strLtChars] at h1 h2 ⊢
        by_cases hxy : x.toNat < y.toNat
        · by_cases hyz : y.toNat < z.toNat
          · simp [show x.toNat < z.toNat by omega]
          · by_cases hzy : z.toNat < y.toNat
            · simp [hyz, hzy] at h2
            · simp [show x.toNat < z.toNat by omega]
        · by_cases hyx : y.toNat < x.toNat
          · simp [hxy, hyx] at h1
          · by_cases hyz : y.toNat < z.toNat
            · simp [show x.toNat < z.toNat by omega]
            · by_cases hzy : z.toNat < y.toNat
              · simp [hyz, hzy] at h2
              · simp [hxy, hyx] at h1
                simp [hyz, hzy] at h2
                simp [show ¬ x.toNat < z.toNat by omega, show ¬ z.toNat < x.toNat by omega]
                exact ih ys zs h1 h2

theorem strLtChars_le_trans (a b c : List Char) (h1 : strLtChars b a = false)
    (h2 : strLtChars c b = false) : strLtChars c a = false := by
  cases hca : strLtChars c a
  · rfl
  · exfalso
    cases hbc : strLtChars b c
    · have heq := strLtChars_connex b c hbc h2
      rw [heq] at h1
      simp [h1] at hca
    · exact absurd (strLtChars_trans b c a hbc hca) (by simp [h1])

theorem strLe_total (a b : String) : strLe a b = true ∨ strLe b a = true := by
  cases h1 : strLt b a
  · left; simp [strLe, h1]
  · cases h2 : strLt a b
    · right; simp [strLe, h2]
    · exact absurd (strLtChars_asymm a.data b.data h2 h1) (fun h => h.elim)

theorem strLe_trans (a b c : String) :
    strLe a b = true → strLe b c = true → strLe a c = true := by
  intro h1 h2
  simp only [strLe, strLt, Bool.not_eq_eq_eq_not, Bool.not_true] at h1 h2 ⊢
  exact strLtChars_le_trans a.data b.data c.data h1 h2

theorem strLt_of_strLe_ne (a b : String) (h : strLe a b = true) (hne : a ≠ b) :
    strLt a b = true := by
  cases hab : strLt a b
  · exfalso
    have h1 : strLtChars b.data a.data = false := by
      simpa [strLe, strLt] using h
    have := strLtChars_connex a.data b.data hab h1
    exact hne (String.ext this)
  · rfl

/-! ## Claim C7 — the `Transaction` constructor -/

/-- Claim C7: for every input list of parent hashes (possibly unsorted,
possibly with duplicates), the constructor produces a transaction whose
parent-hash sequence is strictly ascending (hence duplicate-free) with
exactly the input hashes as members, whose stored hash equals the
recomputation `hashTransaction()` over the stored fields, and which
keeps the caller-provided nonce seed and timestamp untouched —
construction never runs the mining loop. -/
theorem C7_constructor_normalizes (parents : List String) (inputs : List TxInput)
    (outputs : List TxOutput) (difficulty nonceSeed : Nat) (ts : Int) :
    (mkTransaction parents inputs outputs difficulty nonceSeed ts).parentHashes.Pairwise
      (fun a b => strLt a b = true)
    ∧ (∀ h, h ∈ (mkTransaction parents inputs outputs difficulty nonceSeed ts).parentHashes
        ↔ h ∈ parents)
    ∧ (mkTransaction parents inputs outputs difficulty nonceSeed ts).hash
        = hashTransaction (mkTransaction parents inputs outputs difficulty nonceSeed ts)
    ∧ (mkTransaction parents inputs outputs difficulty nonceSeed ts).nonce = nonceSeed
    ∧ (mkTransaction parents inputs outputs difficulty nonceSeed ts).timestamp = ts := by
  refine ⟨?_, ?_, rfl, rfl, rfl⟩
  · have hle := insertionSortBy_pairwise strLe strLe_total strLe_trans parents.dedup
    have hperm := insertionSortBy_perm strLe parents.dedup
    have hnd : (insertionSortBy strLe parents.dedup).Nodup :=
      hperm.symm.nodup (List.nodup_dedup parents)
    have hpair : (insertionSortBy strLe parents.dedup).Pairwise
        (fun a b => strLe a b = true ∧ a ≠ b) := hle.and hnd
    exact hpair.imp (fun h => strLt_of_strLe_ne _ _ h.1 h.2)
  · intro h
    show h ∈ insertionSortBy strLe parents.dedup ↔ h ∈ parents
    rw [(insertionSortBy_perm strLe parents.dedup).mem_iff, List.mem_dedup]

/-! ## Claim C10 — the difficulty guard of `validateTransactionMined` -/

/-- Claim C10: when the mining difficulty exceeds the hash length, the
mining-validity predicate returns `false` outright (whatever the nonce
and target are — they are fields of the quantified transaction); in the
complementary case, where the padding computation actually runs, the
target string it builds has exactly the hash's length, so the
`hash.size() - miningDifficulty` subtraction never underflows. -/
theorem C10_difficulty_guard (t : Transaction) :
    (t.hash.length < t.miningDifficulty → validateTransactionMined t = some false)
    ∧ (t.miningDifficulty ≤ t.hash.length →
        (miningTargetString t).length = t.hash.length) := by
  constructor
  · intro h
    simp [validateTransactionMined, h]
  · intro h
    have hmk : (miningTargetString t).length
        = (List.replicate t.miningDifficulty t.miningTarget
          ++ List.replicate (t.hash.length - t.miningDifficulty) '/').length := rfl
    rw [hmk, List.length_append, List.length_replicate, List.length_replicate]
    omega

/-- Witness for C10 at concrete transactions: a difficulty-99 transaction
with a short hash is reported unmined, and for the well-formed `ceG` the
target string is as long as the hash. -/
theorem C10_difficulty_guard_witness :
    validateTransactionMined c10Tx = some false
    ∧ (miningTargetString ceG).length = ceG.hash.length :=
  ⟨(C10_difficulty_guard c10Tx).1 (by decide), (C10_difficulty_guard ceG).2 (by decide)⟩

/-! ## Claim C9 — confirmation confidence -/

theorem dupWalkList_length_ge : ∀ (l : List ℕ), l.length ≤ (dupWalkList l).length := by
  have H : ∀ (m : Nat) (l : List ℕ), 100 - l.length ≤ m → l.length ≤ (dupWalkList l).length := by
    intro m
    induction m with
    | zero =>
      intro l hl
      rw [dupWalkList, dif_pos (Or.inr (by omega))]
    | succ m ih =>
      intro l hl
      by_cases h : l.length = 0 ∨ 100 ≤ l.length
      · rw [dupWalkList, dif_pos h]
      · rw [dupWalkList, dif_neg h]
        have h2 := ih (l ++ l) (by simp only [List.length_append]; omega)
        simp only [List.length_append] at h2
        omega
  intro l
  exact H 100 l (by omega)

/-- Claim C9: a node whose generated walk set is empty gets confidence
exactly 0 (the emptiness guard keeps the duplication loop from
diverging), and a node with a nonempty walk set gets a confidence inside
`[0, 1]` — for every outcome of the abstracted per-walk oracle. -/
theorem C9_confidence_bounds (G : CGraph) (n : Nat) (walkApproves : Nat → Bool) :
    (generateWalkSet G n = ∅ → confirmationConfidence G n walkApproves = 0)
    ∧ (generateWalkSet G n ≠ ∅ →
        0 ≤ confirmationConfidence G n walkApproves
        ∧ confirmationConfidence G n walkApproves ≤ 1) := by
  constructor
  · intro h
    simp [confirmationConfidence, h]
  · intro h
    have hwl : (generateWalkSet G n).sort (fun a b => a ≤ b) ≠ [] := by
      intro hnil
      have hcard : (generateWalkSet G n).card = 0 := by
        rw [← Finset.length_sort (fun a b => a ≤ b), hnil]
        rfl
      exact h (Finset.card_eq_zero.mp hcard)
    have hlen1 : 1 ≤ ((generateWalkSet G n).sort (fun a b => a ≤ b)).length := by
      cases h63 : (generateWalkSet G n).sort (fun a b => a ≤ b) with
      | nil => exact absurd h63 hwl
      | cons a l => simp
    have hfull : 1 ≤ (dupWalkList ((generateWalkSet G n).sort (fun a b => a ≤ b))).length :=
      le_trans hlen1 (dupWalkList_length_ge _)
    have hpos : (0 : ℚ) < (dupWalkList ((generateWalkSet G n).sort (fun a b => a ≤ b))).length := by
      exact_mod_cast hfull
    have hcount : ((List.range (dupWalkList ((generateWalkSet G n).sort (fun a b => a ≤ b))).length).countP
        walkApproves) % 256
        ≤ (dupWalkList ((generateWalkSet G n).sort (fun a b => a ≤ b))).length := by
      calc _ ≤ (List.range (dupWalkList ((generateWalkSet G n).sort (fun a b => a ≤ b))).length).countP
            walkApproves := Nat.mod_le _ _
        _ ≤ (List.range (dupWalkList ((generateWalkSet G n).sort (fun a b => a ≤ b))).length).length :=
            List.countP_le_length _
        _ = _ := List.length_range _
    constructor
    · simp only [confirmationConfidence, hwl, if_neg hwl]
      positivity
    · simp only [confirmationConfidence, if_neg hwl]
      rw [div_le_one hpos]
      exact_mod_cast hcount

/-- Witness for C9 at concrete graphs: the childless genesis of `c9Lone`
has an empty walk set and confidence exactly 0; the tip of `c9Pair` has
walk set `{0}` and its confidence lies in `[0, 1]` (oracle: every walk
approves). -/
theorem C9_confidence_bounds_witness :
    confirmationConfidence c9Lone 0 (fun _ => true) = 0
    ∧ (0 ≤ confirmationConfidence c9Pair 1 (fun _ => true)
        ∧ confirmationConfidence c9Pair 1 (fun _ => true) ≤ 1) :=
  ⟨(C9_confidence_bounds c9Lone 0 (fun _ => true)).1 (by decide),
   (C9_confidence_bounds c9Pair 1 (fun _ => true)).2 (by decide)⟩

/-! ## Claim C6 — the biased random walk -/

theorem selectIndex_lt (ws : List ℚ) (r : ℚ) (h0 : 0 ≤ r) (hr : r < ws.sum) :
    selectIndex ws r < ws.length := by
  induction ws generalizing r with
  | nil =>
    simp only [List.sum_nil] at hr
    exact absurd (lt_of_le_of_lt h0 hr) (lt_irrefl 0)
  | cons w ws ih =>
    simp only [selectIndex]
    by_cases h : r < w
    · simp [h]
    · rw [if_neg h]
      have h1 : 0 ≤ r - w := by
        simp only [not_lt] at h
        linarith
      have h2 : r - w < ws.sum := by
        simp only [List.sum_cons] at hr
        linarith
      have := ih (r - w) h1 h2
      simp only [List.length_cons]
      omega

/-- Claim C6: on every finite DAG, for every resolution of the
per-step randomness (draws in `[0, 1)`, the contract of
`util::rand2double`) and every positive weight function (standing for
`max(exp(-alpha * (cw(current) - cw(child))), DBL_MIN)`, positive for
every `alpha`), the biased random walk terminates — it is a total
function here, so termination holds on every path, in particular with
probability 1 — and the node it returns has an empty child list: a
tip. -/
theorem C6_walk_terminates_at_tip (G : WGraph) (wfn : Nat → Nat → ℚ) (rs : Nat → ℚ)
    (hr : ∀ s, 0 ≤ rs s ∧ rs s < 1) (hw : ∀ a b, 0 < wfn a b) (step i : Nat) :
    G.children (biasedRandomWalk G wfn rs step i) = [] := by
  have H : ∀ (m step i : Nat), G.size - i ≤ m →
      G.children (biasedRandomWalk G wfn rs step i) = [] := by
    intro m
    induction m with
    | zero =>
      intro step i hm
      have hch : G.children i = [] := by
        cases hc : G.children i with
        | nil => rfl
        | cons c cs =>
          have := G.ok i c (by rw [hc]; simp)
          omega
      have hwalk : biasedRandomWalk G wfn rs step i = i := by
        rw [biasedRandomWalk, hch]
        rfl
      rw [hwalk]
      exact hch
    | succ m ih =>
      intro step i hm
      cases hch : G.children i with
      | nil =>
        have hwalk : biasedRandomWalk G wfn rs step i = i := by
          rw [biasedRandomWalk, hch]
          rfl
        rw [hwalk]
        exact hch
      | cons c0 cs =>
        have hwpos : ∀ w ∈ (G.children i).map (wfn i), 0 < w := by
          intro w hwm
          rcases List.mem_map.mp hwm with ⟨c, _, rfl⟩
          exact hw i c
        have hne : (G.children i).map (wfn i) ≠ [] := by
          rw [hch]; simp
        have hsum : 0 < ((G.children i).map (wfn i)).sum := List.sum_pos _ hwpos hne
        have hrs := hr step
        have h0 : 0 ≤ rs step * ((G.children i).map (wfn i)).sum :=
          mul_nonneg hrs.1 (le_of_lt hsum)
        have hlt : rs step * ((G.children i).map (wfn i)).sum
            < ((G.children i).map (wfn i)).sum := by
          calc rs step * ((G.children i).map (wfn i)).sum
              < 1 * ((G.children i).map (wfn i)).sum :=
                mul_lt_mul_of_pos_right hrs.2 hsum
            _ = ((G.children i).map (wfn i)).sum := one_mul _
        have hk := selectIndex_lt _ _ h0 hlt
        rw [List.length_map] at hk
        rw [biasedRandomWalk]
        split
        · next heq =>
            rw [List.getElem?_eq_getElem hk] at heq
            exact absurd heq (by simp)
        · next c heq =>
            have hcmem : c ∈ G.children i := List.getElem?_mem heq
            have hok := G.ok i c hcmem
            exact ih (step + 1) c (by omega)
  exact H (G.size - i) step i (le_refl _)

/-- Witness for C6 on the concrete chain `0 → 1 → 2` with unit weights
and all-zero random draws. -/
theorem C6_walk_terminates_at_tip_witness :
    chain3.children (biasedRandomWalk chain3 (fun _ _ => 1) (fun _ => 0) 0 0) = [] :=
  C6_walk_terminates_at_tip chain3 (fun _ _ => 1) (fun _ => 0)
    (fun _ => ⟨le_refl 0, by norm_num⟩) (fun _ _ => by norm_num) 0 0

/-! ## Claim C1 — the validation cascade of `Tangle::add` -/

theorem parentsCheck_shape (t : Tangle) (n : AddNode) :
    ∀ ps e, parentsCheck t n ps = some e →
      (∃ h, e = AddErr.nodeNotFound h) ∨ ∃ p q, e = AddErr.alreadyChild p q := by
  intro ps
  induction ps with
  | nil => intro e he; simp [parentsCheck] at he
  | cons p rest ih =>
    intro e he
    rw [parentsCheck] at he
    split at he
    · simp only [Option.some.injEq] at he
      exact Or.inl ⟨"", he.symm⟩
    · split at he
      · simp only [Option.some.injEq] at he
        exact Or.inl ⟨_, he.symm⟩
      · split at he
        · simp only [Option.some.injEq] at he
          exact Or.inr ⟨_, _, he.symm⟩
        · exact ih e he

/-- Claim C1: `add` checks its preconditions in the order — full
validation (`ValidationFailed`), value conservation
(`ValueConservation`), minedness (`UnminedTransaction`), the per-account
balance simulation (`InvalidBalance`, also raised from inside
`queryBalance`), and parent resolution (`NodeNotFound`, interleaved with
the re-insertion check) — each error firing exactly when its predicate
is the first to fail; and whenever `add` throws any error at all, the
tangle (node store, edges, tip list and candidate buffer alike) comes
back unchanged. -/
theorem C1_add_error_order (t : Tangle) (n : AddNode) :
    ((t.add n).2 = some AddErr.validationFailed ↔ validateTransaction n.tx = false)
    ∧ ((t.add n).2 = some AddErr.valueConservation ↔
        (validateTransaction n.tx = true ∧ validateTransactionTotals n.tx = false))
    ∧ ((t.add n).2 = some AddErr.unminedTransaction ↔
        (validateTransaction n.tx = true ∧ validateTransactionTotals n.tx = true
          ∧ validateTransactionMined n.tx = some false))
    ∧ (∀ h a b, (t.add n).2 = some (AddErr.invalidBalance h a b) ↔
        (validateTransaction n.tx = true ∧ validateTransactionTotals n.tx = true
          ∧ validateTransactionMined n.tx = some true
          ∧ balanceSim t n = Except.error (h, a, b)))
    ∧ (∀ h, (t.add n).2 = some (AddErr.nodeNotFound h) ↔
        (validateTransaction n.tx = true ∧ validateTransactionTotals n.tx = true
          ∧ validateTransactionMined n.tx = some true ∧ balanceSim t n = Except.ok ()
          ∧ parentsCheck t n n.parents = some (AddErr.nodeNotFound h)))
    ∧ (∀ e, (t.add n).2 = some e → (t.add n).1 = t) := by
  cases h1 : validateTransaction n.tx
  · simp [Tangle.add, h1]
  · cases h2 : validateTransactionTotals n.tx
    · simp [Tangle.add, h1, h2]
    · rcases h3 : validateTransactionMined n.tx with _ | b
      · simp [Tangle.add, h1, h2, h3]
      · cases b
        · simp [Tangle.add, h1, h2, h3]
        · cases h4 : balanceSim t n with
          | error e =>
            simp [Tangle.add, h1, h2, h3, h4, Prod.ext_iff]
          | ok u =>
            cases u
            cases h5 : parentsCheck t n n.parents with
            | none => simp [Tangle.add, h1, h2, h3, h4, h5]
            | some e =>
              rcases parentsCheck_shape t n n.parents e h5 with ⟨h, rfl⟩ | ⟨p, q, rfl⟩
              · simp [Tangle.add, h1, h2, h3, h4, h5]
              · simp [Tangle.add, h1, h2, h3, h4, h5]

set_option maxRecDepth 100000 in
/-- Witness for C1: a node whose stored hash was corrupted fails the
first check — the result is exactly `ValidationFailed` and the tangle is
unchanged. -/
theorem C1_add_error_order_witness :
    (ceTangle5.add c1BadNode).2 = some AddErr.validationFailed
    ∧ (ceTangle5.add c1BadNode).1 = ceTangle5 :=
  ⟨(C1_add_error_order ceTangle5 c1BadNode).1.mpr (by decide),
   (C1_add_error_order ceTangle5 c1BadNode).2.2.2.2.2 AddErr.validationFailed
     ((C1_add_error_order ceTangle5 c1BadNode).1.mpr (by decide))⟩

/-! ## Claim C3 — cumulative weight of the genesis -/

theorem cumulativeWeight_eq (G : WGraph) (i : Nat) :
    cumulativeWeight G i = G.own i + ((G.children i).map (cumulativeWeight G)).sum := by
  rw [cumulativeWeight]
  congr 1
  rw [List.attach_map_val]

theorem pathCount_self (G : WGraph) (s : Nat) : pathCount G s s = 1 := by
  rw [pathCount]
  simp

theorem pathCount_eq_zero (G : WGraph) (s : Nat) : ∀ j, j < s → pathCount G s j = 0 := by
  intro j
  induction j using Nat.strong_induction_on with
  | _ j ih =>
    intro hjs
    rw [pathCount, if_neg (by omega)]
    refine Finset.sum_eq_zero ?_
    intro p _
    have hp : p.1 < j := Finset.mem_range.mp p.2
    rw [ih p.1 hp (by omega)]
    ring

theorem count_eq_zero_of_ge (G : WGraph) (i j : Nat) (h : ¬ i < j) :
    (G.children i).count j = 0 := by
  rw [List.count_eq_zero]
  intro hmem
  have := G.ok i j hmem
  omega

theorem list_map_sum_comm {α β M : Type} [AddCommMonoid M] (l : List α) (s : Finset β)
    (f : α → β → M) :
    ∑ p in s, (l.map (fun c => f c p)).sum = (l.map (fun c => ∑ p in s, f c p)).sum := by
  induction l with
  | nil => simp
  | cons a l ih => simp [Finset.sum_add_distrib, ih]

theorem count_as_sum (l : List Nat) (j : Nat) :
    (l.map (fun c => if j = c then 1 else 0)).sum = l.count j := by
  induction l with
  | nil => simp
  | cons a l ih =>
    simp only [List.map_cons, List.sum_cons, ih, List.count_cons]
    by_cases h : j = a
    · subst h
      simp [Nat.add_comm]
    · have h2 : ¬ a = j := fun hh => h hh.symm
      simp [h, h2]
    
theorem pathCount_first_step (G : WGraph) (i : Nat) :
    ∀ j, j ≠ i → pathCount G i j = ((G.children i).map (fun c => pathCount G c j)).sum := by
  intro j
  induction j using Nat.strong_induction_on with
  | _ j ih =>
    intro hji
    rw [pathCount, if_neg hji]
    -- each child's path count decomposed
    have hterm : ∀ p : {x // x ∈ Finset.range j},
        (G.children p.1).count j * pathCount G i p.1
          = ((G.children i).map (fun c => (G.children p.1).count j * pathCount G c p.1)).sum
            + (if p.1 = i then (G.children i).count j else 0) := by
      intro p
      by_cases hpi : p.1 = i
      · rw [hpi, pathCount_self]
        have hz : ∀ c ∈ G.children i, pathCount G c i = 0 := by
          intro c hc
          exact pathCount_eq_zero G c i (G.ok i c hc).1
        have : ((G.children i).map (fun c => (G.children i).count j * pathCount G c i)).sum = 0 := by
          rw [List.sum_eq_zero]
          intro x hx
          rcases List.mem_map.mp hx with ⟨c, hc, rfl⟩
          rw [hz c hc]
          ring
        rw [this, if_pos rfl]
        ring
      · have hplt : p.1 < j := Finset.mem_range.mp p.2
        rw [ih p.1 hplt hpi, if_neg hpi, List.sum_map_mul_left, add_zero]
    calc ∑ p in (Finset.range j).attach, (G.children p.1).count j * pathCount G i p.1
        = ∑ p in (Finset.range j).attach,
            (((G.children i).map (fun c => (G.children p.1).count j * pathCount G c p.1)).sum
              + (if p.1 = i then (G.children i).count j else 0)) := by
          exact Finset.sum_congr rfl (fun p _ => hterm p)
      _ = (∑ p in (Finset.range j).attach,
            ((G.children i).map (fun c => (G.children p.1).count j * pathCount G c p.1)).sum)
          + (∑ p in (Finset.range j).attach, (if p.1 = i then (G.children i).count j else 0)) := by
          rw [Finset.sum_add_distrib]
      _ = ((G.children i).map (fun c =>
            ∑ p in (Finset.range j).attach, (G.children p.1).count j * pathCount G c p.1)).sum
          + (G.children i).count j := by
          rw [list_map_sum_comm]
          congr 1
          rw [Finset.sum_attach (Finset.range j)
            (fun x => if x = i then (G.children i).count j else 0)]
          rw [Finset.sum_ite_eq' (Finset.range j) i (fun _ => (G.children i).count j)]
          by_cases hij : i ∈ Finset.range j
          · rw [if_pos hij]
          · rw [if_neg hij]
            rw [count_eq_zero_of_ge G i j (by
              intro hlt
              exact hij (Finset.mem_range.mpr hlt))]
      _ = ((G.children i).map (fun c => pathCount G c j)).sum := by
          have hptwise : ∀ c ∈ G.children i, pathCount G c j
              = (∑ p in (Finset.range j).attach, (G.children p.1).count j * pathCount G c p.1)
                + (if j = c then 1 else 0) := by
            intro c _
            by_cases hjc : j = c
            · rw [if_pos hjc]
              subst hjc
              rw [pathCount_self]
              have hz : ∑ p in (Finset.range j).attach,
                  (G.children p.1).count j * pathCount G j p.1 = 0 := by
                refine Finset.sum_eq_zero ?_
                intro p _
                have hp : p.1 < j := Finset.mem_range.mp p.2
                rw [pathCount_eq_zero G j p.1 (by omega)]
                ring
              rw [hz]
            · rw [pathCount, if_neg hjc, if_neg hjc, add_zero]
          rw [List.map_congr_left hptwise]
          have hsplit : ∀ (l : List ℕ) (f g : ℕ → ℕ),
              (l.map (fun c => f c + g c)).sum = (l.map f).sum + (l.map g).sum := by
            intro l f g
            induction l with
            | nil => simp
            | cons a l ihl => simp [ihl]; ring
          rw [hsplit]
          rw [count_as_sum]

theorem cumulativeWeight_eq_sum_pathCount (G : WGraph) :
    ∀ i, i < G.size →
      cumulativeWeight G i = ∑ j in Finset.range G.size, (pathCount G i j : ℚ) * G.own j := by
  have H : ∀ (m : Nat) (i : Nat), i < G.size → G.size - i ≤ m →
      cumulativeWeight G i = ∑ j in Finset.range G.size, (pathCount G i j : ℚ) * G.own j := by
    intro m
    induction m with
    | zero => intro i hi hm; omega
    | succ m ih =>
      intro i hi hm
      rw [cumulativeWeight_eq]
      have hchild : ∀ c ∈ G.children i, cumulativeWeight G c
          = ∑ j in Finset.range G.size, (pathCount G c j : ℚ) * G.own j := by
        intro c hc
        have hok := G.ok i c hc
        exact ih c hok.2 (by omega)
      rw [List.map_congr_left hchild, ← list_map_sum_comm]
      have hsum : ∀ j ∈ Finset.range G.size,
          ((G.children i).map (fun c => (pathCount G c j : ℚ) * G.own j)).sum
            = (((G.children i).map (fun c => pathCount G c j)).sum : ℚ) * G.own j := by
        intro j _
        rw [Nat.cast_list_sum, List.map_map, ← List.sum_map_mul_right]
        rfl
      rw [Finset.sum_congr rfl hsum]
      have hzero_at_i : (((G.children i).map (fun c => pathCount G c i)).sum : ℚ) * G.own i = 0 := by
        have hz : ((G.children i).map (fun c => pathCount G c i)).sum = 0 := by
          rw [List.sum_eq_zero]
          intro x hx
          rcases List.mem_map.mp hx with ⟨c, hc, rfl⟩
          exact pathCount_eq_zero G c i (G.ok i c hc).1
        rw [hz]
        simp
      have hmem : i ∈ Finset.range G.size := Finset.mem_range.mpr hi
      rw [← Finset.sum_erase_add (Finset.range G.size) _ hmem,
          ← Finset.sum_erase_add (Finset.range G.size)
            (fun j => (pathCount G i j : ℚ) * G.own j) hmem]
      rw [hzero_at_i, add_zero, pathCount_self]
      rw [Finset.sum_congr rfl (fun j hj => by
        have hji : j ≠ i := Finset.ne_of_mem_erase hj
        rw [← pathCount_first_step G i j hji])]
      push_cast
      ring
  intro i hi
  exact H (G.size - i) i hi (le_refl _)

theorem pathCount_one_of_unique_parent (G : WGraph)
    (huniq : ∀ j, 0 < j → j < G.size → inEdgeCount G j = 1) :
    ∀ j, j < G.size → pathCount G 0 j = 1 := by
  intro j
  induction j using Nat.strong_induction_on with
  | _ j ih =>
    intro hj
    by_cases hj0 : j = 0
    · rw [hj0, pathCount_self]
    · rw [pathCount, if_neg hj0]
      have hterm : ∀ p : {x // x ∈ Finset.range j},
          (G.children p.1).count j * pathCount G 0 p.1 = (G.children p.1).count j := by
        intro p
        have hp : p.1 < j := Finset.mem_range.mp p.2
        rw [ih p.1 hp (by omega)]
        ring
      rw [Finset.sum_congr rfl (fun p _ => hterm p)]
      rw [Finset.sum_attach (Finset.range j) (fun p => (G.children p).count j)]
      have hext : ∑ p in Finset.range j, (G.children p).count j
          = ∑ p in Finset.range G.size, (G.children p).count j := by
        refine Finset.sum_subset ?_ ?_
        · intro x hx
          have := Finset.mem_range.mp hx
          exact Finset.mem_range.mpr (by omega)
        · intro x _ hxnot
          have hxj : ¬ x < j := fun hlt => hxnot (Finset.mem_range.mpr hlt)
          exact count_eq_zero_of_ge G x j hxj
      rw [hext]
      exact huniq j (by omega) hj

/-- Claim C3 (amended): once weight propagation completes (every node
satisfies `cw = ownWeight + Σ children cw`), the genesis's cumulative
weight equals the sum over all nodes of `own_weight(n)` **weighted by
the number of distinct genesis-to-n paths** — so the plain sum
`Σ own_weight(n)` is reached exactly in the single-parent case (second
conjunct), not for every DAG shape with multiple parents. -/
theorem C3_genesis_weight (G : WGraph) (hsize : 0 < G.size) :
    cumulativeWeight G 0 = ∑ j in Finset.range G.size, (pathCount G 0 j : ℚ) * G.own j
    ∧ ((∀ j, 0 < j → j < G.size → inEdgeCount G j = 1) →
        cumulativeWeight G 0 = ∑ j in Finset.range G.size, G.own j) := by
  refine ⟨cumulativeWeight_eq_sum_pathCount G 0 hsize, ?_⟩
  intro huniq
  rw [cumulativeWeight_eq_sum_pathCount G 0 hsize]
  refine Finset.sum_congr rfl ?_
  intro j hj
  rw [pathCount_one_of_unique_parent G huniq j (Finset.mem_range.mp hj)]
  simp

/-- Counterexample to C3 as stated: in the diamond DAG (node 3 has the
two parents 1 and 2), the converged cumulative weight of the genesis is
`3` while the sum of all own weights is `12/5` — the shared descendant
is counted once per path, so the claimed equality fails on DAGs with
multiple parents. -/
theorem C3_genesis_weight_counterexample :
    cumulativeWeight diamond 0 ≠ ∑ j in Finset.range diamond.size, diamond.own j := by
  have h3 : cumulativeWeight diamond 3 = 3 / 5 := by
    rw [cumulativeWeight_eq, show diamond.children 3 = [] from rfl]
    show diamond.own 3 + ([] : List ℚ).sum = 3 / 5
    norm_num [diamond, ownWeight]
  have h1 : cumulativeWeight diamond 1 = 6 / 5 := by
    rw [cumulativeWeight_eq, show diamond.children 1 = [3] from rfl]
    simp only [List.map_cons, List.map_nil, List.sum_cons, List.sum_nil, h3]
    norm_num [diamond, ownWeight]
  have h2 : cumulativeWeight diamond 2 = 6 / 5 := by
    rw [cumulativeWeight_eq, show diamond.children 2 = [3] from rfl]
    simp only [List.map_cons, List.map_nil, List.sum_cons, List.sum_nil, h3]
    norm_num [diamond, ownWeight]
  have h0 : cumulativeWeight diamond 0 = 3 := by
    rw [cumulativeWeight_eq, show diamond.children 0 = [1, 2] from rfl]
    simp only [List.map_cons, List.map_nil, List.sum_cons, List.sum_nil, h1, h2]
    norm_num [diamond, ownWeight]
  have hsum : ∑ j in Finset.range diamond.size, diamond.own j = 12 / 5 := by
    show ∑ j in Finset.range 4, diamond.own j = 12 / 5
    rw [Finset.sum_range_succ, Finset.sum_range_succ, Finset.sum_range_succ,
      Finset.sum_range_one]
    norm_num [diamond, ownWeight]
  rw [h0, hsum]
  norm_num

/-- Witness for the amended C3 on the chain `0 → 1 → 2`: every node has
one parent, and the genesis's converged weight is exactly the sum of all
own weights. -/
theorem C3_genesis_weight_witness :
    cumulativeWeight chain3 0 = ∑ j in Finset.range chain3.size, chain3.own j := by
  refine (C3_genesis_weight chain3 (by norm_num [chain3])).2 ?_
  intro j h1 h2
  have hj : j = 1 ∨ j = 2 := by
    have : j < 3 := h2
    omega
  rcases hj with rfl | rfl <;> decide

/-! ## Claim C4: the mining predicate and the base-64 order -/

theorem char_eq_of_toNat (a b : Char) (h : a.toNat = b.toNat) : a = b :=
  Char.eq_of_val_eq (UInt32.eq_of_val_eq (Fin.eq_of_val_eq h))

set_option maxHeartbeats 2000000 in
theorem base64CharCompare_eq_rank (a b : Char) (ha : isBase64C a = true)
    (hb : isBase64C b = true) :
    base64CharCompare a b
      = some (if b64rank b < b64rank a then 1 else if b64rank a < b64rank b then -1 else 0) := by
  by_cases hab : a = b
  · subst hab
    unfold base64CharCompare
    rw [ha]
    simp
  · have hne : a.toNat ≠ b.toNat := fun h2 => hab (char_eq_of_toNat a b h2)
    have ha' := ha
    have hb' := hb
    unfold isBase64C isAlnumC isDigitC isUpperC isLowerC at ha' hb'
    simp only [Bool.or_eq_true, Bool.and_eq_true, decide_eq_true_eq] at ha' hb'
    unfold base64CharCompare b64rank
    rw [ha, hb]
    simp only [Bool.not_true, Bool.false_eq_true, if_false, if_neg hab]
    unfold isDigitC isLowerC isUpperC
    simp only [Bool.and_eq_true, decide_eq_true_eq]
    split_ifs <;> simp only [Option.some.injEq] <;> omega

theorem base64CompareAux_eq_rank : ∀ as bs : List Char,
    (∀ c ∈ as, isBase64C c = true) → (∀ c ∈ bs, isBase64C c = true) →
    base64CompareAux as bs = some (b64rankCompare as bs) := by
  intro as
  induction as with
  | nil => intro bs _ _; cases bs <;> rfl
  | cons a as ih =>
    intro bs ha hb
    cases bs with
    | nil => rfl
    | cons b bs =>
      have hca : isBase64C a = true := ha a (List.mem_cons_self a as)
      have hcb : isBase64C b = true := hb b (List.mem_cons_self b bs)
      have hrec := ih bs (fun c hc => ha c (List.mem_cons_of_mem a hc))
        (fun c hc => hb c (List.mem_cons_of_mem b hc))
      show (match base64CharCompare a b with
        | none => none
        | some 0 => base64CompareAux as bs
        | some r => some r)
          = some (if b64rank a = b64rank b then b64rankCompare as bs
              else if b64rank b < b64rank a then 1 else -1)
      rw [base64CharCompare_eq_rank a b hca hcb]
      rcases Nat.lt_trichotomy (b64rank a) (b64rank b) with hlt | heq | hgt
      · rw [show (if b64rank b < b64rank a then (1 : Int)
            else if b64rank a < b64rank b then -1 else 0) = -1 from by
          rw [if_neg (by omega), if_pos hlt]]
        rw [if_neg (by omega), if_neg (by omega)]
        rfl
      · rw [show (if b64rank b < b64rank a then (1 : Int)
            else if b64rank a < b64rank b then -1 else 0) = 0 from by
          rw [if_neg (by omega), if_neg (by omega)]]
        rw [if_pos heq]
        exact hrec
      · rw [show (if b64rank b < b64rank a then (1 : Int)
            else if b64rank a < b64rank b then -1 else 0) = 1 from by
          rw [if_pos hgt]]
        rw [if_neg (by omega), if_pos hgt]
        rfl

theorem base64Compare_eq_spec (a b : String)
    (ha : ∀ c ∈ a.data, isBase64C c = true) (hb : ∀ c ∈ b.data, isBase64C c = true) :
    base64Compare a b = some (b64SpecCompare a b) := by
  unfold base64Compare b64SpecCompare
  split_ifs with h1 h2
  · rfl
  · rfl
  · exact base64CompareAux_eq_rank a.data b.data ha hb

theorem b64rank_le (c : Char) : b64rank c ≤ 63 := by
  unfold b64rank isUpperC isLowerC isDigitC
  simp only [Bool.and_eq_true, decide_eq_true_eq]
  split_ifs <;> omega

theorem b64rank_eq_zero (c : Char) : b64rank c = 0 ↔ c = 'A' := by
  constructor
  · intro h
    have h65 : c.toNat = 65 := by
      unfold b64rank isUpperC isLowerC isDigitC at h
      simp only [Bool.and_eq_true, decide_eq_true_eq] at h
      split_ifs at h <;> omega
    exact char_eq_of_toNat c 'A' (by rw [h65]; rfl)
  · intro h; subst h; rfl

theorem rankCompare_slashes : ∀ cs : List Char, (∀ c ∈ cs, isBase64C c = true) →
    b64rankCompare cs (List.replicate cs.length '/') ≤ 0 := by
  intro cs
  induction cs with
  | nil => intro _; simp [b64rankCompare]
  | cons c cs ih =>
    intro hv
    show b64rankCompare (c :: cs) ('/' :: List.replicate cs.length '/') ≤ 0
    show (if b64rank c = b64rank '/' then b64rankCompare cs (List.replicate cs.length '/')
        else if b64rank '/' < b64rank c then 1 else -1) ≤ 0
    by_cases h : b64rank c = b64rank '/'
    · rw [if_pos h]
      exact ih (fun x hx => hv x (List.mem_cons_of_mem c hx))
    · rw [if_neg h, if_neg (by
        have h1 := b64rank_le c
        have h2 : b64rank '/' = 63 := rfl
        omega)]
      omega

theorem rankCompare_target : ∀ (cs : List Char) (d : Nat),
    (∀ c ∈ cs, isBase64C c = true) → d ≤ cs.length →
    (b64rankCompare cs (List.replicate d 'A' ++ List.replicate (cs.length - d) '/') ≤ 0
      ↔ ∀ c ∈ cs.take d, c = 'A') := by
  intro cs
  induction cs with
  | nil =>
    intro d _ hd
    have hd0 : d = 0 := by simpa using hd
    subst hd0
    simp [b64rankCompare]
  | cons c cs ih =>
    intro d hv hd
    cases d with
    | zero =>
      simp only [List.replicate_zero, List.nil_append, Nat.sub_zero, List.take_zero]
      constructor
      · intro _ x hx; cases hx
      · intro _; exact rankCompare_slashes (c :: cs) hv
    | succ d =>
      have hrep : List.replicate (d + 1) 'A' ++ List.replicate ((c :: cs).length - (d + 1)) '/'
          = 'A' :: (List.replicate d 'A' ++ List.replicate (cs.length - d) '/') := by
        simp [List.replicate_succ, List.length_cons]
      rw [hrep]
      show (if b64rank c = b64rank 'A' then
          b64rankCompare cs (List.replicate d 'A' ++ List.replicate (cs.length - d) '/')
        else if b64rank 'A' < b64rank c then 1 else -1) ≤ 0
        ↔ ∀ x ∈ (c :: cs).take (d + 1), x = 'A'
      have hA0 : b64rank 'A' = 0 := rfl
      by_cases hc : b64rank c = 0
      · have hcA : c = 'A' := (b64rank_eq_zero c).mp hc
        rw [if_pos (by rw [hA0]; exact hc)]
        rw [ih d (fun x hx => hv x (List.mem_cons_of_mem c hx)) (by simpa using hd)]
        subst hcA
        simp [List.take_succ_cons]
      · rw [if_neg (by rw [hA0]; exact hc), if_pos (by omega)]
        constructor
        · intro h; omega
        · intro h
          exfalso
          exact hc ((b64rank_eq_zero c).mpr (h c (by simp [List.take_succ_cons])))

/-- Claim C4: when every hash character and the target character are valid
base-64 digits and the difficulty does not exceed the hash length (so the
claim's target construction "difficulty copies of the target padded with
`/` to the hash's length" is well defined), the mining predicate holds
exactly when the hash is numerically `≤` the target string under the
spec's base-64 order (longer strings larger, characters ordered
`/` > `+` > digits > lowercase > uppercase); in particular for the
default target `A` the transaction is mined exactly when the first
`miningDifficulty` characters of its hash are all `A`. -/
theorem C4_mining_predicate (t : Transaction)
    (hhash : ∀ c ∈ t.hash.data, isBase64C c = true)
    (htgt : isBase64C t.miningTarget = true)
    (hd : t.miningDifficulty ≤ t.hash.length) :
    validateTransactionMined t = some (decide (b64SpecCompare t.hash (miningTargetString t) ≤ 0))
    ∧ (t.miningTarget = 'A' →
        (validateTransactionMined t = some true
          ↔ ∀ c ∈ t.hash.data.take t.miningDifficulty, c = 'A')) := by
  have htv : ∀ c ∈ (miningTargetString t).data, isBase64C c = true := by
    intro c hc
    have hc' : c ∈ List.replicate t.miningDifficulty t.miningTarget
        ++ List.replicate (t.hash.length - t.miningDifficulty) '/' := hc
    rcases List.mem_append.mp hc' with h | h
    · rw [List.eq_of_mem_replicate h]; exact htgt
    · rw [List.eq_of_mem_replicate h]; rfl
  have hmain : validateTransactionMined t
      = some (decide (b64SpecCompare t.hash (miningTargetString t) ≤ 0)) := by
    unfold validateTransactionMined
    rw [if_neg (by omega), base64Compare_eq_spec t.hash (miningTargetString t) hhash htv]
    rfl
  refine ⟨hmain, ?_⟩
  intro hA
  rw [hmain]
  have hlen : (miningTargetString t).length = t.hash.length := by
    show (List.replicate t.miningDifficulty t.miningTarget
      ++ List.replicate (t.hash.length - t.miningDifficulty) '/').length = t.hash.length
    simp
    omega
  have hspec : b64SpecCompare t.hash (miningTargetString t)
      = b64rankCompare t.hash.data (miningTargetString t).data := by
    unfold b64SpecCompare
    rw [if_neg (by omega), if_neg (by omega)]
  have hdata : (miningTargetString t).data
      = List.replicate t.miningDifficulty 'A'
        ++ List.replicate (t.hash.data.length - t.miningDifficulty) '/' := by
    show List.replicate t.miningDifficulty t.miningTarget
        ++ List.replicate (t.hash.length - t.miningDifficulty) '/' = _
    rw [hA]
    rfl
  rw [hspec, hdata]
  have hlen2 : t.miningDifficulty ≤ t.hash.data.length := hd
  simp only [Option.some.injEq, decide_eq_true_eq]
  exact rankCompare_target t.hash.data t.miningDifficulty hhash hlen2

set_option maxRecDepth 100000 in
/-- Concrete instantiation of `C4_mining_predicate`: the constructed genesis
transaction has a valid base-64 hash, target `A`, difficulty below the hash
length, and its first three hash characters are all `A`, so the theorem
yields that it is mined. -/
theorem C4_mining_predicate_witness : validateTransactionMined ceG = some true :=
  ((C4_mining_predicate ceG (by decide) (by decide) (by decide)).2 (by decide)).mpr (by decide)

/-! ## Claim C2: tip-list behaviour of a successful `add` -/

theorem updateChildren_length (ns : List TNode) (i c : Nat) :
    (updateChildren ns i c).length = ns.length := by
  unfold updateChildren
  cases h : ns[i]? with
  | none => rfl
  | some nd => simp

theorem addParentStep_nodes_length (newIdx : Nat) (acc : Tangle) (p : Nat) :
    (addParentStep newIdx acc p).nodes.length = acc.nodes.length := by
  unfold addParentStep
  cases h : acc.nodes[p]? with
  | none => rfl
  | some pn =>
    simp only []
    cases hf : Tangle.find { acc with tips := acc.tips.filter (fun x => x ≠ p) } pn.tx.hash with
    | none => rfl
    | some fi => simp [updateChildren_length]

theorem addParentStep_tips (newIdx : Nat) (acc : Tangle) (p : Nat)
    (hp : p < acc.nodes.length) :
    (addParentStep newIdx acc p).tips = acc.tips.filter (fun x => x ≠ p) ++ [newIdx] := by
  unfold addParentStep
  cases h : acc.nodes[p]? with
  | none =>
    exfalso
    rw [List.getElem?_eq_none_iff] at h
    omega
  | some pn =>
    simp only []
    cases hf : Tangle.find { acc with tips := acc.tips.filter (fun x => x ≠ p) } pn.tx.hash with
    | none => rfl
    | some fi => rfl

theorem fold_addParentStep_tips (newIdx : Nat) : ∀ (ps : List Nat) (s : Tangle),
    (∀ p ∈ ps, p < s.nodes.length) → (∀ p ∈ ps, p ≠ newIdx) →
    (ps.foldl (addParentStep newIdx) s).tips
      = s.tips.filter (fun x => !(ps.contains x)) ++ List.replicate ps.length newIdx := by
  intro ps
  induction ps with
  | nil =>
    intro s _ _
    simp
  | cons p ps ih =>
    intro s hlt hne
    have hp : p < s.nodes.length := hlt p (List.mem_cons_self p ps)
    have hstep := addParentStep_tips newIdx s p hp
    have hlen : (addParentStep newIdx s p).nodes.length = s.nodes.length :=
      addParentStep_nodes_length newIdx s p
    rw [List.foldl_cons,
      ih (addParentStep newIdx s p)
        (fun q hq => by rw [hlen]; exact hlt q (List.mem_cons_of_mem p hq))
        (fun q hq => hne q (List.mem_cons_of_mem p hq)),
      hstep]
    rw [List.filter_append, List.filter_filter]
    have hmem : newIdx ∉ ps := fun h => hne newIdx (List.mem_cons_of_mem p h) rfl
    have hnc : ps.contains newIdx = false := by
      cases hcc : ps.contains newIdx
      · rfl
      · exact absurd (List.mem_of_elem_eq_true hcc) hmem
    have hnew : ([newIdx] : List Nat).filter (fun x => !(ps.contains x)) = [newIdx] := by
      simp only [List.filter, hnc, Bool.not_false]
    rw [hnew]
    have hpred : s.tips.filter (fun a => !(ps.contains a) && decide (a ≠ p))
        = s.tips.filter (fun x => !((p :: ps).contains x)) := by
      apply List.filter_congr
      intro x _
      by_cases hxp : x = p
      · subst hxp
        simp
      · simp [hxp]
    rw [hpred, List.append_assoc]
    rfl

theorem addApply_tips (t : Tangle) (n : AddNode)
    (hp : ∀ p ∈ n.parents, p < t.nodes.length) :
    (addApply t n).tips
      = t.tips.filter (fun x => !(n.parents.contains x))
        ++ List.replicate n.parents.length t.nodes.length := by
  unfold addApply
  have hfold := fold_addParentStep_tips t.nodes.length n.parents
    { t with nodes := t.nodes ++ [{ tx := n.tx, isGenesis := false, parents := n.parents,
                                    children := [], cumulativeWeight := 0 }] }
    (fun q hq => by simp; have := hp q hq; omega)
    (fun q hq => by have := hp q hq; omega)
  simp only [addApply]
  split_ifs <;> exact hfold

theorem Tangle.add_success_fst (t : Tangle) (n : AddNode)
    (h : (t.add n).2 = none) : (t.add n).1 = addApply t n := by
  unfold Tangle.add at h ⊢
  cases hv : validateTransaction n.tx with
  | false => rw [hv] at h; simp at h
  | true =>
    rw [hv] at h
    cases ht : validateTransactionTotals n.tx with
    | false => rw [ht] at h; simp at h
    | true =>
      rw [ht] at h
      cases hm : validateTransactionMined n.tx with
      | none => rw [hm] at h; simp at h
      | some b =>
        cases b with
        | false => rw [hm] at h; simp at h
        | true =>
          rw [hm] at h
          cases hb : balanceSim t n with
          | error e => rw [hb] at h; simp at h
          | ok u =>
            rw [hb] at h
            cases hpc : parentsCheck t n n.parents with
            | some e => rw [hpc] at h; simp at h
            | none => simp

theorem fold_addParentStep_len (newIdx : Nat) : ∀ (ps : List Nat) (s : Tangle),
    (ps.foldl (addParentStep newIdx) s).nodes.length = s.nodes.length := by
  intro ps
  induction ps with
  | nil => intro s; rfl
  | cons p ps ih =>
    intro s
    rw [List.foldl_cons, ih (addParentStep newIdx s p), addParentStep_nodes_length]

theorem addApply_len (t : Tangle) (n : AddNode) :
    (addApply t n).nodes.length = t.nodes.length + 1 := by
  simp only [addApply]
  have hfold := fold_addParentStep_len t.nodes.length n.parents
    { t with nodes := t.nodes ++ [{ tx := n.tx, isGenesis := false, parents := n.parents,
                                    children := [], cumulativeWeight := 0 }] }
  split_ifs
  · rw [hfold]; simp
  · rw [hfold]; simp

theorem enqueueChildren_nodes_congr (t t2 : Tangle) (h : t.nodes = t2.nodes) :
    ∀ (cs : List Nat) (qc : List Nat × List String),
      enqueueChildren t cs qc = enqueueChildren t2 cs qc := by
  intro cs
  induction cs with
  | nil => intro qc; rfl
  | cons c cs ih =>
    intro qc
    obtain ⟨q, considered⟩ := qc
    unfold enqueueChildren
    rw [h]
    cases hc : t2.nodes[c]? with
    | none => exact ih (q, considered)
    | some cn =>
      simp only []
      split_ifs
      · exact ih (q, considered)
      · exact ih (q ++ [c], considered ++ [cn.tx.hash])

theorem findAux_nodes_congr (t t2 : Tangle) (h : t.nodes = t2.nodes) (hs : String) :
    ∀ (fuel : Nat) (q : List Nat) (considered : List String),
      findAux t hs fuel q considered = findAux t2 hs fuel q considered := by
  intro fuel
  induction fuel with
  | zero => intro q c; rfl
  | succ fuel ih =>
    intro q c
    cases q with
    | nil => rfl
    | cons i rest =>
      unfold findAux
      rw [h]
      cases hn : t2.nodes[i]? with
      | none => exact ih rest c
      | some nd =>
        simp only []
        split_ifs
        · rfl
        · rfl
        · rw [enqueueChildren_nodes_congr t t2 h nd.children (rest, c)]
          exact ih (enqueueChildren t2 nd.children (rest, c)).1
            (enqueueChildren t2 nd.children (rest, c)).2

theorem find_nodes_congr (t t2 : Tangle) (h : t.nodes = t2.nodes) (hs : String) :
    t.find hs = t2.find hs := by
  unfold Tangle.find
  rw [h]
  exact findAux_nodes_congr t t2 h hs (t2.nodes.length + 1) [0] []

theorem updateChildren_txs (ns : List TNode) (i c : Nat) :
    ∀ j : Nat, ((updateChildren ns i c)[j]?).map (fun nd => nd.tx)
      = (ns[j]?).map (fun nd => nd.tx) := by
  intro j
  unfold updateChildren
  cases h : ns[i]? with
  | none => rfl
  | some nd =>
    simp only []
    by_cases hij : i = j
    · subst hij
      have hlen : i < ns.length := by
        by_contra hc
        rw [List.getElem?_eq_none_iff.mpr (by omega)] at h
        simp at h
      rw [List.getElem?_set_self (by omega), h]
      rfl
    · rw [List.getElem?_set_ne (by omega)]

theorem addParentStep_txs (newIdx : Nat) (acc : Tangle) (p : Nat) :
    ∀ j : Nat, (((addParentStep newIdx acc p).nodes)[j]?).map (fun nd => nd.tx)
      = ((acc.nodes)[j]?).map (fun nd => nd.tx) := by
  intro j
  unfold addParentStep
  cases h : acc.nodes[p]? with
  | none => rfl
  | some pn =>
    simp only []
    cases hf : Tangle.find { acc with tips := acc.tips.filter (fun x => x ≠ p) } pn.tx.hash with
    | none => rfl
    | some fi => exact updateChildren_txs acc.nodes fi newIdx j

theorem hashAt_addParentStep (newIdx : Nat) (acc : Tangle) (p q : Nat) :
    hashAt (addParentStep newIdx acc p) q = hashAt acc q := by
  unfold hashAt
  have h := addParentStep_txs newIdx acc p q
  rw [show ∀ (o : Option TNode), o.map (fun nd => nd.tx.hash)
      = (o.map (fun nd => nd.tx)).map (fun tx => tx.hash) from fun o => by
    cases o <;> rfl]
  rw [show ((acc.nodes[q]?).map (fun nd => nd.tx.hash))
      = ((acc.nodes[q]?).map (fun nd => nd.tx)).map (fun tx => tx.hash) from by
    cases acc.nodes[q]? <;> rfl]
  rw [h]

theorem addParentStep_nodes_char (newIdx : Nat) (acc : Tangle) (p : Nat)
    (hp : p < acc.nodes.length)
    (hfind : acc.find (hashAt acc p) = some p) :
    ∀ j : Nat, (((addParentStep newIdx acc p).nodes)[j]?)
      = ((acc.nodes)[j]?).map (fun nd =>
          if j = p then { nd with children := nd.children ++ [newIdx] } else nd) := by
  intro j
  unfold addParentStep
  cases h : acc.nodes[p]? with
  | none =>
    exfalso
    rw [List.getElem?_eq_none_iff] at h
    omega
  | some pn =>
    simp only []
    have hhash : hashAt acc p = pn.tx.hash := by
      unfold hashAt
      rw [h]
      rfl
    have hfind1 : Tangle.find { acc with tips := acc.tips.filter (fun x => x ≠ p) } pn.tx.hash
        = some p := by
      rw [find_nodes_congr { acc with tips := acc.tips.filter (fun x => x ≠ p) } acc rfl]
      rw [← hhash]
      exact hfind
    rw [hfind1]
    simp only []
    unfold updateChildren
    rw [show ({ acc with tips := acc.tips.filter (fun x => x ≠ p) } : Tangle).nodes
      = acc.nodes from rfl]
    rw [h]
    by_cases hjp : j = p
    · subst hjp
      rw [List.getElem?_set_self (by omega), h]
      simp
    · rw [List.getElem?_set_ne (by omega)]
      cases h2 : acc.nodes[j]? with
      | none => rfl
      | some nd => simp [hjp]

theorem children_append_comp (newIdx p : Nat) (ps : List Nat) (j : Nat) (nd : TNode) :
    (fun nd => { nd with children := nd.children ++ List.replicate (ps.count j) newIdx })
      (if j = p then { nd with children := nd.children ++ [newIdx] } else nd)
    = { nd with children := nd.children ++ List.replicate (((p :: ps).count j)) newIdx } := by
  by_cases hjp : j = p
  · subst hjp
    rw [if_pos rfl]
    simp only []
    rw [List.append_assoc, List.count_cons_self, List.replicate_succ]
    rfl
  · rw [if_neg hjp]
    simp only []
    have hc : (p == j) = false := beq_eq_false_iff_ne.mpr (fun hh => hjp hh.symm)
    rw [List.count_cons, hc]
    simp

theorem fold_addParentStep_children (newIdx : Nat) : ∀ (ps : List Nat) (s : Tangle),
    (∀ p ∈ ps, p < s.nodes.length) →
    (∀ k (hk : k < ps.length),
      ((ps.take k).foldl (addParentStep newIdx) s).find (hashAt s (ps.get ⟨k, hk⟩))
        = some (ps.get ⟨k, hk⟩)) →
    ∀ j : Nat, (((ps.foldl (addParentStep newIdx) s).nodes)[j]?)
      = ((s.nodes)[j]?).map (fun nd =>
          { nd with children := nd.children ++ List.replicate (ps.count j) newIdx }) := by
  intro ps
  induction ps with
  | nil =>
    intro s _ _ j
    show (s.nodes[j]?) = _
    cases h : s.nodes[j]? with
    | none => rfl
    | some nd =>
      show some nd = some { nd with children :=
        nd.children ++ List.replicate (List.count j []) newIdx }
      rw [show List.count j ([] : List Nat) = 0 from rfl]
      rw [List.replicate_zero, List.append_nil]
  | cons p ps ih =>
    intro s hlt hfind j
    have hp0 : p < s.nodes.length := hlt p (List.mem_cons_self p ps)
    have hfind0 : s.find (hashAt s p) = some p := hfind 0 (by simp)
    have hchar := addParentStep_nodes_char newIdx s p hp0 hfind0
    have hlen := addParentStep_nodes_length newIdx s p
    rw [List.foldl_cons]
    rw [ih (addParentStep newIdx s p)
        (fun q hq => by rw [hlen]; exact hlt q (List.mem_cons_of_mem p hq))
        (fun k hk => by
          have hk2 : k + 1 < (p :: ps).length := by
            simp only [List.length_cons]
            omega
          have h1 := hfind (k + 1) hk2
          rw [List.take_succ_cons, List.foldl_cons] at h1
          rw [hashAt_addParentStep]
          exact h1) j]
    rw [hchar j]
    cases h : s.nodes[j]? with
    | none => rfl
    | some nd =>
      exact congrArg some (children_append_comp newIdx p ps j nd)

theorem allocNode_getElem (t : Tangle) (n : AddNode) (j : Nat) (hj : j < t.nodes.length) :
    (allocNode t n).nodes[j]? = t.nodes[j]? := by
  unfold allocNode
  simp only []
  rw [List.getElem?_append, if_pos hj]

theorem hashAt_allocNode (t : Tangle) (n : AddNode) (p : Nat) (hp : p < t.nodes.length) :
    hashAt (allocNode t n) p = hashAt t p := by
  unfold hashAt
  rw [allocNode_getElem t n p hp]

theorem addApply_nodes_fold (t : Tangle) (n : AddNode) :
    (addApply t n).nodes
      = (n.parents.foldl (addParentStep t.nodes.length) (allocNode t n)).nodes := by
  simp only [addApply]
  split_ifs <;> rfl

/-- Claim C2 (corrected): after a successful `add` of a node whose parent
indices are in range: every parent is gone from the tip list and the new
node's index has been appended to the tip list once per parent — the code
never deduplicates, so a node with several parents appears several times
in the tip list, not exactly once; the node store grows by one; and,
whenever each per-parent `find(parent->hash)` lookup (run against the
tangle as it stands at that iteration) resolves to that parent itself,
the new node's index is appended to every parent's child list — once per
occurrence — while every other child list is unchanged. -/
theorem C2_add_tip_update (t : Tangle) (n : AddNode)
    (hsucc : (t.add n).2 = none)
    (hp : ∀ p ∈ n.parents, p < t.nodes.length)
    (htips : ∀ x ∈ t.tips, x < t.nodes.length) :
    (t.add n).1.tips
      = t.tips.filter (fun x => !(n.parents.contains x))
        ++ List.replicate n.parents.length t.nodes.length
    ∧ (t.add n).1.tips.count t.nodes.length = n.parents.length
    ∧ (∀ p ∈ n.parents, p ∉ (t.add n).1.tips)
    ∧ (t.add n).1.nodes.length = t.nodes.length + 1
    ∧ ((∀ k (hk : k < n.parents.length),
          ((n.parents.take k).foldl (addParentStep t.nodes.length) (allocNode t n)).find
              (hashAt t (n.parents.get ⟨k, hk⟩))
            = some (n.parents.get ⟨k, hk⟩)) →
        ∀ j, j < t.nodes.length →
          (t.add n).1.nodes[j]?
            = (t.nodes[j]?).map (fun nd =>
                { nd with children :=
                    nd.children ++ List.replicate (n.parents.count j) t.nodes.length })) := by
  have heq : (t.add n).1.tips
      = t.tips.filter (fun x => !(n.parents.contains x))
        ++ List.replicate n.parents.length t.nodes.length := by
    rw [Tangle.add_success_fst t n hsucc]
    exact addApply_tips t n hp
  refine ⟨heq, ?_, ?_, ?_, ?_⟩
  · rw [heq, List.count_append]
    have hzero : (t.tips.filter (fun x => !(n.parents.contains x))).count t.nodes.length = 0 := by
      rw [List.count_eq_zero]
      intro hmem
      have := htips t.nodes.length (List.mem_of_mem_filter hmem)
      omega
    rw [hzero, List.count_replicate_self]
    omega
  · intro p hpmem
    rw [heq]
    intro hmem
    rcases List.mem_append.mp hmem with hmf | hmr
    · have hkeep := List.of_mem_filter hmf
      have hcont : n.parents.contains p = true := List.elem_eq_true_of_mem hpmem
      rw [hcont] at hkeep
      exact absurd hkeep (by simp)
    · have := List.eq_of_mem_replicate hmr
      have := hp p hpmem
      omega
  · rw [Tangle.add_success_fst t n hsucc]
    exact addApply_len t n
  · intro hfind j hj
    rw [Tangle.add_success_fst t n hsucc, addApply_nodes_fold t n]
    have halloclen : (allocNode t n).nodes.length = t.nodes.length + 1 := by
      unfold allocNode
      simp
    rw [fold_addParentStep_children t.nodes.length n.parents (allocNode t n)
      (fun q hq => by rw [halloclen]; have := hp q hq; omega)
      (fun k hk => by
        rw [hashAt_allocNode t n (n.parents.get ⟨k, hk⟩) (hp _ (n.parents.get_mem k hk))]
        exact hfind k hk) j]
    rw [allocNode_getElem t n j hj]

set_option maxRecDepth 1000000 in
/-- Concrete instantiation of `C2_add_tip_update`: adding the two-parent
node `ceNodeD` to the five-transaction tangle succeeds, its index appears
in the tip list once per parent (here twice), and the child list of its
second parent (node 5, transaction `C`) gains the new index once. -/
theorem C2_add_tip_update_witness :
    (ceTangle5.add ceNodeD).1.tips.count ceTangle5.nodes.length = ceNodeD.parents.length
      ∧ (ceTangle5.add ceNodeD).1.nodes[5]?
          = (ceTangle5.nodes[5]?).map (fun nd =>
              { nd with children :=
                  nd.children
                    ++ List.replicate (ceNodeD.parents.count 5) ceTangle5.nodes.length }) :=
  ⟨(C2_add_tip_update ceTangle5 ceNodeD (by decide) (by decide) (by decide)).2.1,
   (C2_add_tip_update ceTangle5 ceNodeD (by decide) (by decide)
      (by decide)).2.2.2.2 (by decide) 5 (by decide)⟩

set_option maxRecDepth 1000000 in
/-- Counterexample to claim C2 as stated: the two-parent node `ceNodeD`
is successfully added (no error) as node index `6`, yet afterwards the
tip list is `[6, 6]` — the node appears twice, not "exactly once
(deduplicated by hash)". -/
theorem C2_add_tip_update_counterexample :
    (ceTangle5.add ceNodeD).2 = none
      ∧ (ceTangle5.add ceNodeD).1.tips = [6, 6]
      ∧ (ceTangle5.add ceNodeD).1.tips.count 6 ≠ 1 := by
  refine ⟨by decide, by decide, by decide⟩

/-! ## Claim C8: the genesis-synchronization listener -/

/-- Claim C8 (corrected): a `SyncGenesisRequest` whose genesis hash does
not match the expected hash never changes the state (and never installs);
but when the hashes match and the recomputed hash differs from
`actualHash`, the listener does not always throw — it silently ignores
the message whenever the current genesis already carries the message's
genesis hash (or no sync was requested), and only throws otherwise.  The
signature and empty-inputs rejections do hold once the early-return
guards have passed and the sender's key is known (an unknown sender is
answered with a key request, not a throw).  Installation happens only
when every check passed, and then the tangle becomes `setGenesis` of the
received genesis with its hash forced to the claimed hash and the
expected-hash flag cleared. -/
theorem C8_sync_genesis_listener (st : NetState) (src : Nat) (m : SyncGenesisRequest) :
    (st.genesisSyncExpectedHash ≠ m.genesis.hash →
      (syncGenesisListener st src m).1 = st
        ∧ (syncGenesisListener st src m).2 ≠ SyncOutcome.installed)
    ∧ (st.genesisSyncExpectedHash = m.genesis.hash →
        hashTransaction m.genesis ≠ m.actualHash →
        syncGenesisListener st src m = (st, SyncOutcome.ignored)
          ∨ syncGenesisListener st src m = (st, SyncOutcome.threw))
    ∧ (st.genesisSyncExpectedHash ≠ "Invalid" →
        ∀ g, st.tangle.nodes[0]? = some g → g.tx.hash ≠ m.genesis.hash →
        st.genesisSyncExpectedHash = m.genesis.hash →
        hashTransaction m.genesis = m.actualHash →
        ∀ pk, lookupPeer st.peerKeys src = some pk →
        (verifyMessage pk (m.genesis.hash ++ hashTransaction m.genesis) m.validitySignature
            = false
          ∨ m.genesis.inputs ≠ []) →
        syncGenesisListener st src m = (st, SyncOutcome.threw))
    ∧ ((syncGenesisListener st src m).2 = SyncOutcome.installed →
        st.genesisSyncExpectedHash ≠ "Invalid"
          ∧ st.genesisSyncExpectedHash = m.genesis.hash
          ∧ hashTransaction m.genesis = m.actualHash
          ∧ m.genesis.inputs = []
          ∧ (∃ pk, lookupPeer st.peerKeys src = some pk
              ∧ verifyMessage pk (m.genesis.hash ++ hashTransaction m.genesis) m.validitySignature
                  = true)
          ∧ (syncGenesisListener st src m).1.genesisSyncExpectedHash = "Invalid"
          ∧ ∃ an, createNodeFromTx st.tangle m.genesis = Except.ok an
              ∧ (syncGenesisListener st src m).1.tangle
                  = forceGenesisHash
                      (st.tangle.setGenesis
                        { tx := an.tx, isGenesis := true, parents := an.parents,
                          children := [], cumulativeWeight := 0 }).1 m.claimedHash) := by
  refine ⟨?_, ?_, ?_, ?_⟩
  · intro hne
    unfold syncGenesisListener
    by_cases h1 : st.genesisSyncExpectedHash = "Invalid"
    · rw [if_pos h1]
      exact ⟨rfl, by simp⟩
    · rw [if_neg h1]
      cases hg : st.tangle.nodes[0]? with
      | none => exact ⟨rfl, by simp⟩
      | some g =>
        simp only []
        by_cases h2 : g.tx.hash = m.genesis.hash
        · rw [if_pos h2]
          exact ⟨rfl, by simp⟩
        · rw [if_neg h2, if_pos hne]
          exact ⟨rfl, by simp⟩
  · intro hexp hmis
    unfold syncGenesisListener
    by_cases h1 : st.genesisSyncExpectedHash = "Invalid"
    · rw [if_pos h1]
      exact Or.inl rfl
    · rw [if_neg h1]
      cases hg : st.tangle.nodes[0]? with
      | none => exact Or.inl rfl
      | some g =>
        simp only []
        by_cases h2 : g.tx.hash = m.genesis.hash
        · rw [if_pos h2]
          exact Or.inl rfl
        · rw [if_neg h2, if_neg (by intro hc; exact hc hexp), if_pos hmis]
          exact Or.inr rfl
  · intro h1 g hg h2 hexp hact pk hpk hrej
    unfold syncGenesisListener
    rw [if_neg h1, hg]
    simp only []
    rw [if_neg h2, if_neg (by intro hc; exact hc hexp),
      if_neg (by intro hc; exact hc hact), hpk]
    simp only []
    rcases hrej with hv | hi
    · rw [if_pos (by rw [hv]; simp)]
    · by_cases hv : verifyMessage pk (m.genesis.hash ++ hashTransaction m.genesis)
          m.validitySignature = true
      · rw [if_neg (by rw [not_not]; exact hv), if_pos hi]
      · rw [if_pos hv]
  · unfold syncGenesisListener
    by_cases h1 : st.genesisSyncExpectedHash = "Invalid"
    · rw [if_pos h1]
      intro h
      simp at h
    · rw [if_neg h1]
      cases hg : st.tangle.nodes[0]? with
      | none => intro h; simp at h
      | some g =>
        simp only []
        by_cases h2 : g.tx.hash = m.genesis.hash
        · rw [if_pos h2]
          intro h
          simp at h
        · rw [if_neg h2]
          by_cases h3 : st.genesisSyncExpectedHash ≠ m.genesis.hash
          · rw [if_pos h3]
            intro h
            simp at h
          · rw [if_neg h3]
            by_cases h4 : hashTransaction m.genesis ≠ m.actualHash
            · rw [if_pos h4]
              intro h
              simp at h
            · rw [if_neg h4]
              cases hpk : lookupPeer st.peerKeys src with
              | none => intro h; simp at h
              | some pk =>
                simp only []
                by_cases h5 : verifyMessage pk (m.genesis.hash ++ hashTransaction m.genesis)
                    m.validitySignature = true
                · rw [if_neg (by rw [not_not]; exact h5)]
                  by_cases h6 : m.genesis.inputs ≠ []
                  · rw [if_pos h6]
                    intro h
                    simp at h
                  · rw [if_neg h6]
                    cases hc : createNodeFromTx st.tangle m.genesis with
                    | error e => intro h; simp at h
                    | ok an =>
                      simp only []
                      rw [show st.tangle.setGenesis
                            { tx := an.tx, isGenesis := true, parents := an.parents,
                              children := [], cumulativeWeight := 0 }
                          = ((st.tangle.setGenesis
                              { tx := an.tx, isGenesis := true, parents := an.parents,
                                children := [], cumulativeWeight := 0 }).1,
                             (st.tangle.setGenesis
                              { tx := an.tx, isGenesis := true, parents := an.parents,
                                children := [], cumulativeWeight := 0 }).2) from rfl]
                      cases he2 : (st.tangle.setGenesis
                          { tx := an.tx, isGenesis := true, parents := an.parents,
                            children := [], cumulativeWeight := 0 }).2 with
                      | some e => intro h; simp at h
                      | none =>
                        intro _
                        exact ⟨h1, not_not.mp h3, not_not.mp h4, not_not.mp h6,
                          ⟨pk, rfl, h5⟩, rfl, an, rfl, rfl⟩
                · rw [if_pos h5]
                  intro h
                  simp at h

set_option maxRecDepth 1000000 in
/-- Counterexample to claim C8 as stated: a peer whose expected genesis
hash equals the received message's genesis hash, while the message's
`actualHash` does not match the recomputed hash of the transmitted
genesis.  The claim demands a throw; the listener returns early with no
exception (outcome `ignored`) because the current genesis already has
that hash, and the state is unchanged. -/
theorem C8_sync_genesis_counterexample :
    c8State.genesisSyncExpectedHash = (deliverSyncGenesis c8Msg).genesis.hash
      ∧ hashTransaction (deliverSyncGenesis c8Msg).genesis ≠ (deliverSyncGenesis c8Msg).actualHash
      ∧ syncGenesisListener c8State 9 (deliverSyncGenesis c8Msg)
          = (c8State, SyncOutcome.ignored) := by
  refine ⟨by decide, by decide, by decide⟩

set_option maxRecDepth 1000000 in
/-- Concrete instantiation of `C8_sync_genesis_listener`: a fresh peer
(no sync requested, expected hash `Invalid`) receiving the corrupted
sync message keeps its state unchanged and does not install. -/
theorem C8_sync_genesis_listener_witness :
    (syncGenesisListener (freshNetState 100 0 9 9) 9 (deliverSyncGenesis c8Msg)).1
        = freshNetState 100 0 9 9
      ∧ (syncGenesisListener (freshNetState 100 0 9 9) 9 (deliverSyncGenesis c8Msg)).2
          ≠ SyncOutcome.installed :=
  (C8_sync_genesis_listener (freshNetState 100 0 9 9) 9 (deliverSyncGenesis c8Msg)).1 (by decide)

/-! ## Claim C5: persistence round trip -/

theorem verify_sign (k : Nat) (m : String) : verifyMessage k m (signMessage k m) = true := by
  simp [verifyMessage, signMessage]

theorem deserialize_wellFormed (tx : Transaction) (h : txWellFormed tx = true) :
    deserializeTransaction tx = tx := by
  unfold txWellFormed at h
  simp only [Bool.and_eq_true, beq_iff_eq] at h
  obtain ⟨⟨⟨hval, _⟩, _⟩, hsort⟩ := h
  unfold validateTransaction at hval
  simp only [Bool.and_eq_true, beq_iff_eq] at hval
  obtain ⟨hhash, _⟩ := hval
  obtain ⟨ts, nc, md, mt, ins, outs, ph, hs⟩ := tx
  simp only [] at hhash hsort
  unfold deserializeTransaction mkTransaction
  simp only [hsort]
  rw [show hashTransaction
      { timestamp := ts, nonce := nc, miningDifficulty := md, miningTarget := mt,
        inputs := ins, outputs := outs, parentHashes := ph, hash := hashTransaction
          { timestamp := ts, nonce := nc, miningDifficulty := md, miningTarget := 'A',
            inputs := ins, outputs := outs, parentHashes := ph, hash := "" } }
      = hashTransaction
      { timestamp := ts, nonce := nc, miningDifficulty := md, miningTarget := mt,
        inputs := ins, outputs := outs, parentHashes := ph, hash := hs } from rfl]
  rw [show hashTransaction
      { timestamp := ts, nonce := nc, miningDifficulty := md, miningTarget := mt,
        inputs := ins, outputs := outs, parentHashes := ph, hash := hs } = hs from hhash]

theorem resolveParents_find (t : Tangle) : ∀ (hs : List String) (ps : List Nat),
    resolveParents t hs = Except.ok ps → ∀ h ∈ hs, (t.find h).isSome = true := by
  intro hs
  induction hs with
  | nil => intro ps _ h hmem; cases hmem
  | cons h0 rest ih =>
    intro ps hok h hmem
    unfold resolveParents at hok
    cases hf : t.find h0 with
    | none => rw [hf] at hok; simp at hok
    | some i =>
      rw [hf] at hok
      rcases List.mem_cons.mp hmem with rfl | hmem2
      · rw [hf]; rfl
      · cases hrest : resolveParents t rest with
        | error e => rw [hrest] at hok; simp [Except.map] at hok
        | ok ps2 => exact ih ps2 hrest h hmem2

theorem updateChildren_node0 (ns : List TNode) (i c : Nat) :
    ((updateChildren ns i c)[0]?).map (fun nd => nd.tx) = (ns[0]?).map (fun nd => nd.tx) := by
  unfold updateChildren
  cases h : ns[i]? with
  | none => rfl
  | some nd =>
    simp only []
    by_cases hi : i = 0
    · subst hi
      have hlen : 0 < ns.length := by
        cases hns : ns with
        | nil => rw [hns] at h; simp at h
        | cons a l => simp
      rw [List.getElem?_set_self (by omega), h]
      rfl
    · rw [List.getElem?_set_ne (by omega)]

theorem addParentStep_node0 (newIdx : Nat) (acc : Tangle) (p : Nat) :
    (((addParentStep newIdx acc p).nodes)[0]?).map (fun nd => nd.tx)
      = ((acc.nodes)[0]?).map (fun nd => nd.tx) := by
  unfold addParentStep
  cases h : acc.nodes[p]? with
  | none => rfl
  | some pn =>
    simp only []
    cases hf : Tangle.find { acc with tips := acc.tips.filter (fun x => x ≠ p) } pn.tx.hash with
    | none => rfl
    | some fi => exact updateChildren_node0 acc.nodes fi newIdx

theorem fold_addParentStep_node0 (newIdx : Nat) : ∀ (ps : List Nat) (s : Tangle),
    (((ps.foldl (addParentStep newIdx) s).nodes)[0]?).map (fun nd => nd.tx)
      = ((s.nodes)[0]?).map (fun nd => nd.tx) := by
  intro ps
  induction ps with
  | nil => intro s; rfl
  | cons p ps ih =>
    intro s
    rw [List.foldl_cons, ih (addParentStep newIdx s p), addParentStep_node0]

theorem addApply_node0 (t : Tangle) (n : AddNode) (hne : t.nodes ≠ []) :
    (((addApply t n).nodes)[0]?).map (fun nd => nd.tx)
      = ((t.nodes)[0]?).map (fun nd => nd.tx) := by
  have hlen : 0 < t.nodes.length := by
    cases hn : t.nodes with
    | nil => exact absurd hn hne
    | cons a l => simp
  simp only [addApply]
  have hfold := fold_addParentStep_node0 t.nodes.length n.parents
    { t with nodes := t.nodes ++ [{ tx := n.tx, isGenesis := false, parents := n.parents,
                                    children := [], cumulativeWeight := 0 }] }
  split_ifs
  · rw [hfold]
    simp only []
    rw [List.getElem?_append, if_pos hlen]
  · rw [hfold]
    simp only []
    rw [List.getElem?_append, if_pos hlen]

theorem replayStep_node0 (t : Tangle) (trx : Transaction) (t1 : Tangle)
    (hne : t.nodes ≠ []) (hstep : replayStep t trx = some t1) :
    ((t1.nodes)[0]?).map (fun nd => nd.tx) = ((t.nodes)[0]?).map (fun nd => nd.tx)
      ∧ t1.nodes ≠ [] := by
  unfold replayStep at hstep
  cases hc : createNodeFromTx t trx with
  | error e => rw [hc] at hstep; simp at hstep
  | ok an =>
    rw [hc] at hstep
    simp only [] at hstep
    cases hadd : t.add an with
    | mk ta eo =>
      rw [hadd] at hstep
      cases eo with
      | some e => simp at hstep
      | none =>
        simp only [Option.some.injEq] at hstep
        subst hstep
        have hfst : (t.add an).1 = addApply t an :=
          Tangle.add_success_fst t an (by rw [hadd])
        have hta : ta = addApply t an := by rw [← hfst, hadd]
        subst hta
        refine ⟨addApply_node0 t an hne, ?_⟩
        have := addApply_len t an
        intro hnil
        rw [hnil] at this
        simp at this

theorem replayAll_node0 : ∀ (l : List Transaction) (t tF : Tangle),
    t.nodes ≠ [] → replayAll t l = some tF →
    ((tF.nodes)[0]?).map (fun nd => nd.tx) = ((t.nodes)[0]?).map (fun nd => nd.tx)
      ∧ tF.nodes ≠ [] := by
  intro l
  induction l with
  | nil =>
    intro t tF hne hrep
    unfold replayAll at hrep
    simp only [Option.some.injEq] at hrep
    subst hrep
    exact ⟨rfl, hne⟩
  | cons trx rest ih =>
    intro t tF hne hrep
    unfold replayAll at hrep
    cases hstep : replayStep t trx with
    | none => rw [hstep] at hrep; simp at hrep
    | some t1 =>
      rw [hstep] at hrep
      obtain ⟨h0, hne1⟩ := replayStep_node0 t trx t1 hne hstep
      obtain ⟨h1, hne2⟩ := ih t1 tF hne1 hrep
      exact ⟨h1.trans h0, hne2⟩

theorem lookupPeer_self (selfId keys : Nat) :
    lookupPeer [(selfId, keys)] selfId = some keys := by
  simp [lookupPeer]

theorem loadStep (selfId keys : Nat) (t : Tangle) (trx : Transaction) (t1 : Tangle)
    (hwf : txWellFormed trx = true) (hstep : replayStep t trx = some t1) :
    (syncAddListener (mkLoadState selfId keys t) selfId
      (deliverAddRequest (mkAddTransactionRequest (deserializeTransaction trx) keys))).1
      = mkLoadState selfId keys t1 := by
  have hdes : deserializeTransaction trx = trx := deserialize_wellFormed trx hwf
  have hm : deliverAddRequest (mkAddTransactionRequest (deserializeTransaction trx) keys)
      = { validityHash := trx.hash, validitySignature := signMessage keys trx.hash,
          transaction := trx } := by
    rw [hdes]
    unfold deliverAddRequest mkAddTransactionRequest
    simp only []
    rw [hdes]
  rw [hm]
  unfold replayStep at hstep
  cases hc : createNodeFromTx t trx with
  | error e => rw [hc] at hstep; simp at hstep
  | ok an =>
    rw [hc] at hstep
    simp only [] at hstep
    cases hadd : t.add an with
    | mk ta eo =>
      rw [hadd] at hstep
      cases eo with
      | some e => simp at hstep
      | none =>
        simp only [Option.some.injEq] at hstep
        subst hstep
        have hres : ∃ ps, resolveParents t trx.parentHashes = Except.ok ps := by
          unfold createNodeFromTx at hc
          cases hr : resolveParents t trx.parentHashes with
          | error e2 => rw [hr] at hc; simp at hc
          | ok ps => exact ⟨ps, rfl⟩
        obtain ⟨ps, hres⟩ := hres
        have hall : trx.parentHashes.all (fun h => (t.find h).isSome) = true := by
          rw [List.all_eq_true]
          intro h hmem
          exact resolveParents_find t trx.parentHashes ps hres h hmem
        have h1 : attemptToAddTransaction
            { tangle := t, selfId := selfId, personalKeys := keys,
              peerKeys := [(selfId, keys)], connectedPeers := [],
              genesisSyncExpectedHash := "Invalid", networkAdditionQueue := [],
              updateWeights := false } trx selfId (signMessage keys trx.hash)
            = { tangle := ta, selfId := selfId, personalKeys := keys,
                peerKeys := [(selfId, keys)], connectedPeers := [],
                genesisSyncExpectedHash := "Invalid", networkAdditionQueue := [],
                updateWeights := false } := by
          unfold attemptToAddTransaction
          simp only []
          rw [lookupPeer_self]
          simp only []
          rw [verify_sign]
          rw [if_neg (by simp)]
          rw [hall, if_pos rfl, hc]
          simp only []
          rw [hadd]
        have h2 : addTransactionListener
            { tangle := t, selfId := selfId, personalKeys := keys,
              peerKeys := [(selfId, keys)], connectedPeers := [],
              genesisSyncExpectedHash := "Invalid", networkAdditionQueue := [],
              updateWeights := false } selfId
            { validityHash := trx.hash, validitySignature := signMessage keys trx.hash,
              transaction := trx }
            = ({ tangle := ta, selfId := selfId, personalKeys := keys,
                 peerKeys := [(selfId, keys)], connectedPeers := [],
                 genesisSyncExpectedHash := "Invalid", networkAdditionQueue := [],
                 updateWeights := false }, false) := by
          unfold addTransactionListener
          simp only []
          rw [if_neg (not_not_intro rfl)]
          rw [h1]
          rfl
        unfold syncAddListener
        simp only [mkLoadState]
        rw [h2]

theorem loadFold (selfId keys : Nat) : ∀ (l : List Transaction) (t tF : Tangle),
    (∀ tx ∈ l, txWellFormed tx = true) → replayAll t l = some tF →
    l.foldl (fun s trx =>
      (syncAddListener s s.selfId
        (deliverAddRequest (mkAddTransactionRequest (deserializeTransaction trx)
          s.personalKeys))).1)
      (mkLoadState selfId keys t) = mkLoadState selfId keys tF := by
  intro l
  induction l with
  | nil =>
    intro t tF _ hrep
    unfold replayAll at hrep
    simp only [Option.some.injEq] at hrep
    rw [hrep]
    rfl
  | cons trx rest ih =>
    intro t tF hwf hrep
    unfold replayAll at hrep
    cases hstep : replayStep t trx with
    | none => rw [hstep] at hrep; simp at hrep
    | some t1 =>
      rw [hstep] at hrep
      rw [List.foldl_cons]
      have hs := loadStep selfId keys t trx t1 (hwf trx (List.mem_cons_self trx rest)) hstep
      rw [show (syncAddListener (mkLoadState selfId keys t) (mkLoadState selfId keys t).selfId
          (deliverAddRequest (mkAddTransactionRequest (deserializeTransaction trx)
            (mkLoadState selfId keys t).personalKeys))).1 = mkLoadState selfId keys t1 from hs]
      exact ih t1 tF (fun x hx => hwf x (List.mem_cons_of_mem trx hx)) hrep

theorem loadGenesisInstall (ts : Int) (ns selfId keys : Nat) (g : Transaction)
    (hwfg : txWellFormed g = true) (hgp : g.parentHashes = []) (hgi : g.inputs = [])
    (hginv : g.hash ≠ "Invalid")
    (hgne : (mkTransaction [] [] [] 3 ns ts).hash ≠ g.hash) :
    (syncGenesisListener
        { freshNetState ts ns selfId keys with genesisSyncExpectedHash := g.hash }
        selfId (deliverSyncGenesis (mkSyncGenesisRequest g keys))).1
      = mkLoadState selfId keys (genesisTangle g) := by
  have hdes : deserializeTransaction g = g := deserialize_wellFormed g hwfg
  have hmsg : deliverSyncGenesis (mkSyncGenesisRequest g keys)
      = { claimedHash := g.hash, actualHash := hashTransaction g,
          validitySignature := signMessage keys (g.hash ++ hashTransaction g),
          genesis := g } := by
    unfold deliverSyncGenesis mkSyncGenesisRequest
    simp only []
    rw [hdes]
  have hcreate : createNodeFromTx (freshTangle ts ns) g
      = Except.ok { tx := deserializeTransaction g, parents := [] } := by
    unfold createNodeFromTx deserializeTransaction
    rw [hgp]
    rfl
  rw [hmsg]
  unfold syncGenesisListener
  simp only [freshNetState, freshTangle]
  rw [if_neg hginv]
  rw [show ([({ tx := mkTransaction [] [] [] 3 ns ts, isGenesis := true,
                parents := [], children := [], cumulativeWeight := 0 } : TNode)])[0]?
    = some { tx := mkTransaction [] [] [] 3 ns ts, isGenesis := true,
             parents := [], children := [], cumulativeWeight := 0 } from rfl]
  simp only []
  rw [if_neg hgne, if_neg (not_not_intro rfl), if_neg (not_not_intro rfl), lookupPeer_self]
  simp only []
  rw [verify_sign, if_neg (by simp), if_neg (not_not_intro hgi)]
  rw [show createNodeFromTx
      { nodes := [{ tx := mkTransaction [] [] [] 3 ns ts, isGenesis := true,
                    parents := [], children := [], cumulativeWeight := 0 }],
        tips := [], genesisCandidates := [] } g
    = Except.ok { tx := deserializeTransaction g, parents := [] } from hcreate]
  simp only []
  rw [hdes]
  rw [show Tangle.setGenesis
      { nodes := [{ tx := mkTransaction [] [] [] 3 ns ts, isGenesis := true,
                    parents := [], children := [], cumulativeWeight := 0 }],
        tips := [], genesisCandidates := [] }
      { tx := g, isGenesis := true, parents := [], children := [], cumulativeWeight := 0 }
    = (genesisTangle g, none) from rfl]
  simp only []
  rw [show forceGenesisHash (genesisTangle g) g.hash = genesisTangle g from by
    unfold forceGenesisHash genesisTangle
    rfl]
  rfl

theorem orderedInsertBy_front {α : Type} (r : α → α → Bool) (a : α) (l : List α)
    (h : ∀ b ∈ l, r a b = true) : orderedInsertBy r a l = a :: l := by
  cases l with
  | nil => rfl
  | cons b bs =>
    unfold orderedInsertBy
    rw [if_pos (h b (List.mem_cons_self b bs))]

theorem orderedInsertBy_congr {α : Type} (r r2 : α → α → Bool) (a : α) : ∀ (l : List α),
    (∀ x ∈ l, r a x = r2 a x) → orderedInsertBy r a l = orderedInsertBy r2 a l := by
  intro l
  induction l with
  | nil => intro _; rfl
  | cons b bs ih =>
    intro h
    unfold orderedInsertBy
    rw [h b (List.mem_cons_self b bs)]
    by_cases h2 : r2 a b = true
    · rw [if_pos h2, if_pos h2]
    · rw [if_neg h2, if_neg h2, ih (fun x hx => h x (List.mem_cons_of_mem b hx))]

theorem insertionSortBy_congr {α : Type} (r r2 : α → α → Bool) : ∀ (l : List α),
    (∀ x ∈ l, ∀ y ∈ l, r x y = r2 x y) → insertionSortBy r l = insertionSortBy r2 l := by
  intro l
  induction l with
  | nil => intro _; rfl
  | cons b bs ih =>
    intro h
    unfold insertionSortBy
    rw [ih (fun x hx y hy => h x (List.mem_cons_of_mem b hx) y (List.mem_cons_of_mem b hy))]
    exact orderedInsertBy_congr r r2 b (insertionSortBy r2 bs) (fun x hx =>
      h b (List.mem_cons_self b bs) x
        (List.mem_cons_of_mem b ((insertionSortBy_perm r2 bs).mem_iff.mp hx)))

/-- Claim C5 (corrected): loading a saved stream into a fresh networked
tangle is exactly a replay of the stream through the structural `add` —
when every streamed transaction is well formed and every non-genesis
transaction's structural insertion succeeds (in particular when the
stream lists parents before children, as a strictly increasing timestamp
order guarantees), the loaded tangle equals the replay of the stream onto
its genesis, whose node 0 still carries the stream's genesis transaction;
and the saved stream itself is the transaction listing with the genesis
forced to position 0 and the rest stably sorted by timestamp.  (Without
the parents-before-children condition the round trip can silently drop
transactions — see the counterexample.) -/
theorem C5_persistence_roundtrip (ts : Int) (ns selfId keys : Nat)
    (g : Transaction) (rest : List Transaction) (tFinal : Tangle)
    (hwfg : txWellFormed g = true) (hgp : g.parentHashes = []) (hgi : g.inputs = [])
    (hginv : g.hash ≠ "Invalid")
    (hgne : (mkTransaction [] [] [] 3 ns ts).hash ≠ g.hash)
    (hwf : ∀ tx ∈ rest, txWellFormed tx = true)
    (hreplay : replayAll (genesisTangle g) rest = some tFinal) :
    (loadTangle (freshNetState ts ns selfId keys) (g :: rest)).tangle = tFinal
    ∧ ((tFinal.nodes)[0]?).map (fun nd => nd.tx) = some g
    ∧ (∀ (t : Tangle) (gtx : Transaction) (others : List Transaction),
        (t.listTransactions).filterMap (fun i => (t.nodes[i]?).map (fun nd => nd.tx))
            = gtx :: others →
        (∀ x ∈ others, x.hash ≠ gtx.hash) →
        saveTangle t
            = gtx :: insertionSortBy (fun a b => decide (a.timestamp ≤ b.timestamp)) others
          ∧ (saveTangle t).Perm (gtx :: others)
          ∧ ((saveTangle t).tail).Pairwise (fun a b => a.timestamp ≤ b.timestamp)) := by
  have hdes : deserializeTransaction g = g := deserialize_wellFormed g hwfg
  refine ⟨?_, ?_, ?_⟩
  · unfold loadTangle
    simp only []
    rw [hdes]
    rw [show ({ freshNetState ts ns selfId keys with
          genesisSyncExpectedHash := g.hash } : NetState).selfId = selfId from rfl]
    rw [show ({ freshNetState ts ns selfId keys with
          genesisSyncExpectedHash := g.hash } : NetState).personalKeys = keys from rfl]
    rw [show ({ tangle := (freshNetState ts ns selfId keys).tangle, selfId := selfId,
                personalKeys := keys,
                peerKeys := (freshNetState ts ns selfId keys).peerKeys,
                connectedPeers := (freshNetState ts ns selfId keys).connectedPeers,
                genesisSyncExpectedHash := g.hash,
                networkAdditionQueue := (freshNetState ts ns selfId keys).networkAdditionQueue,
                updateWeights := (freshNetState ts ns selfId keys).updateWeights } : NetState)
      = { freshNetState ts ns selfId keys with genesisSyncExpectedHash := g.hash } from rfl]
    rw [loadGenesisInstall ts ns selfId keys g hwfg hgp hgi hginv hgne]
    rw [loadFold selfId keys rest (genesisTangle g) tFinal hwf hreplay]
    rfl
  · have h0 := replayAll_node0 rest (genesisTangle g) tFinal (by simp [genesisTangle]) hreplay
    rw [h0.1]
    rfl
  · intro t gtx others htxs hdist
    have hbg : ∀ x ∈ others, (x.hash == gtx.hash) = false :=
      fun x hx => beq_eq_false_iff_ne.mpr (hdist x hx)
    have hcngr : insertionSortBy (fun a b => !(saveComparator gtx.hash b a)) others
        = insertionSortBy (fun a b => decide (a.timestamp ≤ b.timestamp)) others := by
      apply insertionSortBy_congr
      intro x hx y hy
      unfold saveComparator
      rw [hbg y hy, hbg x hx]
      simp only [Bool.false_eq_true, if_false]
      rw [← decide_not]
      exact decide_eq_decide.mpr (by omega)
    have hsave : saveTangle t
        = gtx :: insertionSortBy (fun a b => decide (a.timestamp ≤ b.timestamp)) others := by
      unfold saveTangle
      simp only []
      rw [htxs]
      simp only [insertionSortBy]
      rw [hcngr]
      apply orderedInsertBy_front
      intro b hb
      have hbmem : b ∈ others :=
        (insertionSortBy_perm (fun a b => decide (a.timestamp ≤ b.timestamp)) others).mem_iff.mp hb
      unfold saveComparator
      rw [hbg b hbmem]
      simp
    refine ⟨hsave, ?_, ?_⟩
    · rw [hsave]
      exact (insertionSortBy_perm _ others).cons gtx
    · rw [hsave]
      simp only [List.tail_cons]
      have hpw := insertionSortBy_pairwise (fun a b => decide (a.timestamp ≤ b.timestamp))
        (fun x y => by rcases Int.le_total x.timestamp y.timestamp with h | h
                       · exact Or.inl (decide_eq_true h)
                       · exact Or.inr (decide_eq_true h))
        (fun x y z hxy hyz => decide_eq_true
          (le_trans (of_decide_eq_true hxy) (of_decide_eq_true hyz)))
        others
      exact hpw.imp (fun h => of_decide_eq_true h)

set_option maxRecDepth 1000000 in
/-- Counterexample to claim C5 as stated: all seven transactions of
`ceTangle` share one timestamp, so the stable sort may emit node `D`
before its parent `C`; on load, `D` is orphaned in a queue that is
drained only once per message, and the loaded tangle is missing `D` even
though the saved stream contains it. -/
theorem C5_roundtrip_counterexample :
    ((saveTangle ceTangle).map (fun tx => tx.hash)).contains ceD.hash = true
      ∧ (ceTangle.nodes.map (fun nd => nd.tx.hash)).contains ceD.hash = true
      ∧ (ceLoaded.tangle.nodes.map (fun nd => nd.tx.hash)).contains ceD.hash = false := by
  refine ⟨by decide, by decide, by decide⟩

set_option maxRecDepth 1000000 in
/-- Concrete instantiation of `C5_persistence_roundtrip`: the same
seven-transaction topology with strictly increasing timestamps saves to
a parents-before-children stream, and loading that stream reproduces the
replayed tangle exactly. -/
theorem C5_persistence_roundtrip_witness :
    (loadTangle (freshNetState 0 55 9 9) (wtHead :: wtRest)).tangle = wtFinal :=
  (C5_persistence_roundtrip 0 55 9 9 wtHead wtRest wtFinal (by decide) (by decide)
    (by decide) (by decide) (by decide) (by decide) (by decide)).1
